import Mathlib

/-!
# Iodine: annotated errors with stack entries

A shallow embedding of `iodine.go`.  Go maps are reference values and `*Error` is a pointer,
so the embedding passes an explicit process state around: a heap of map objects, a heap of
`Error` objects, and the address of the process-wide map `globalState.m`.  Every operation
returns `Option`: `none` stands for a run-time panic (calling a method of a nil interface,
dereferencing a nil pointer, assigning into a nil map) or for the use of an address that no
object lives at, which no Go program can hold.

The read/write lock of `globalState` is not part of the embedding: the operations are
modelled as they run on one thread.

`EmitJSON` is `json.Marshal`, which is not part of this library: the embedding carries the
part of `encoding/json` that the types `Error` and `StackEntry` reach (the reflection walk
over fields and tags, and the compact text of the document), and a JSON parser to state what
the text parses back into.

A Go string is a sequence of bytes. It is embedded as the `String` whose characters are its
bytes, each a character between 0 and 255, so that strings that are not valid UTF-8 are
covered: `fmt` writes the bytes of a string as they are, `encoding/json` replaces each byte
that is not part of a well-formed UTF-8 sequence by U+FFFD.
-/

namespace Iodine

set_option linter.dupNamespace false

/-! ## Data model -/

/-- Contents of one `map[string]string` object: finitely many entries with distinct keys.
The order of the entries stands for one iteration order of the Go map. -/
abbrev MapObj := AList (fun _ : String => String)

/-- A Go value of type `map[string]string`: `none` is the nil map, `some a` refers to the
map object stored at address `a` of the heap. -/
abbrev MapRef := Option Nat

/-- A Go value of type `*Error`: `none` is the nil pointer, `some a` points to the `Error`
stored at address `a`. -/
abbrev ErrRef := Option Nat

/-- A non-nil value of Go's builtin interface `error`: all that the interface exposes is
the method `Error() string`, taken to return the same string on every call. -/
structure GoError where
  Error : String
deriving DecidableEq

/-- StackEntry contains the entry in the stack trace. -/
structure StackEntry where
  Host : String
  File : String
  Line : Int
  Data : MapRef
deriving DecidableEq

/-- Error is the iodine error which contains the original error (`none` is the nil
interface value) and stack traces. -/
structure Error where
  EmbeddedError : Option GoError
  ErrorMessage : String
  Stack : List StackEntry
deriving DecidableEq

/-- The process state the library works on. `maps` and `errors` are the heaps (an address
is an index, allocation appends), `globalState` is the address of the map `globalState.m`,
which is made once at start-up and never reassigned. -/
structure State where
  maps : List MapObj
  errors : List Error
  globalState : Nat

/-- What the two runtime collaborators answer during one call of `New` or `Annotate`:
the first result of `os.Hostname()` and the file and line of `runtime.Caller(2)`. The
error of the former and the `ok` of the latter are discarded by the code. -/
structure CallEnv where
  Hostname : String
  CallerFile : String
  CallerLine : Int

/-! ## Go map primitives -/

/-- The entries a `range` loop over the object produces, in its iteration order. -/
def MapObj.pairs (o : MapObj) : List (String × String) :=
  o.entries.map fun e => (e.1, e.2)

/-- Successive assignments `o[k] = v` for the listed pairs, first pair first. -/
def insertAll (o : MapObj) (kvs : List (String × String)) : MapObj :=
  kvs.foldl (fun acc kv => acc.insert kv.1 kv.2) o

/-- A reference is usable in a heap when it is nil or an address of the heap. -/
def MapRef.ok (h : List MapObj) : MapRef → Prop
  | none => True
  | some a => a < h.length

instance MapRef.decidableOk (h : List MapObj) : (m : MapRef) → Decidable (MapRef.ok h m)
  | none => isTrue trivial
  | some a => inferInstanceAs (Decidable (a < h.length))

/-- The object a reference reads as: the nil map reads as the empty map. -/
def readMap (h : List MapObj) (m : MapRef) : Option MapObj :=
  match m with
  | none => some ∅
  | some a => h[a]?

/-- Allocation `make(map[string]string)`: a new empty object at a fresh address. -/
def makemap (h : List MapObj) : List MapObj × Nat :=
  (h ++ [∅], h.length)

/-- Assignment `m[k] = v`. Assigning into the nil map panics. -/
def mapassign (h : List MapObj) (m : MapRef) (k v : String) : Option (List MapObj) :=
  match m with
  | none => none
  | some a => (h[a]?).map fun o => h.set a (o.insert k v)

/-- Builtin `delete(m, k)`. Deleting from the nil map does nothing. -/
def mapdelete (h : List MapObj) (m : MapRef) (k : String) : Option (List MapObj) :=
  match m with
  | none => some h
  | some a => (h[a]?).map fun o => h.set a (o.erase k)

/-- The pairs `for k, v := range m` runs over. Ranging over the nil map runs no
iteration. -/
def maprange (h : List MapObj) (m : MapRef) : Option (List (String × String)) :=
  (readMap h m).map MapObj.pairs

/-- The loop `for k, v := range src { dst[k] = v }`. -/
def copyInto (h : List MapObj) (src dst : MapRef) : Option (List MapObj) := do
  let kvs ← maprange h src
  kvs.foldlM (fun acc kv => mapassign acc dst kv.1 kv.2) h

/-! ## Global context store -/

/-- Go `SetGlobalState(key, value)`: `globalState.m[key] = value`. -/
def SetGlobalState (s : State) (key value : String) : Option State :=
  (mapassign s.maps (some s.globalState) key value).map fun h => { s with maps := h }

/-- Go `ClearGlobalState()`: `for k, _ := range globalState.m { delete(globalState.m, k) }`.
Each iteration deletes the key it is visiting, so the loop visits every key that was
present when it started. -/
def ClearGlobalState (s : State) : Option State := do
  let kvs ← maprange s.maps (some s.globalState)
  let h ← kvs.foldlM (fun acc kv => mapdelete acc (some s.globalState) kv.1) s.maps
  pure { s with maps := h }

/-- Go `GetGlobalState()`: makes a new map, copies every entry of `globalState.m` into
it and returns it. -/
def GetGlobalState (s : State) : Option (State × MapRef) := do
  let (h0, r) := makemap s.maps
  let h ← copyInto h0 (some s.globalState) (some r)
  pure ({ s with maps := h }, some r)

/-! ## Annotated error -/

/-- Go `createStackEntry()`. -/
def createStackEntry (s : State) (c : CallEnv) : Option (State × StackEntry) := do
  let (s1, data) ← GetGlobalState s
  pure (s1, { Host := c.Hostname, File := c.CallerFile, Line := c.CallerLine, Data := data })

/-- Go `New(err, data)`: wraps an error, turning it into an iodine error with an initial
stack entry. `err.Error()` panics for the nil interface. -/
def New (s : State) (c : CallEnv) (err : Option GoError) (data : MapRef) :
    Option (State × ErrRef) := do
  let (s1, entry) ← createStackEntry s c
  let h ← copyInto s1.maps data entry.Data
  let e ← err
  let obj : Error := { EmbeddedError := err, ErrorMessage := e.Error, Stack := [entry] }
  pure ({ s1 with maps := h, errors := s1.errors ++ [obj] }, some s1.errors.length)

/-- Go `(err *Error) Annotate(info)`: annotates an error with a stack entry and returns
the receiver. The stack is kept as the list of entries of the receiver: `append` gives the
receiver the old entries followed by the new one. The backing array of the slice is not part
of the embedding, so two `Error` values made by copying a struct, whose slices share an
array, are not covered: an `append` through one of them can replace an entry seen through
the other. -/
def Error.Annotate (s : State) (c : CallEnv) (err : ErrRef) (info : MapRef) :
    Option (State × ErrRef) := do
  let (s1, entry) ← createStackEntry s c
  let h ← copyInto s1.maps info entry.Data
  let p ← err
  let obj ← s1.errors[p]?
  pure ({ s1 with maps := h,
                  errors := s1.errors.set p { obj with Stack := obj.Stack ++ [entry] } }, err)

/-- Go `(err Error) Error()`: emits the original error message. -/
def Error.Error (err : Error) : Option String :=
  err.EmbeddedError.map fun e => e.Error

/-- The `Error` a pointer points to. -/
def deref (s : State) (p : ErrRef) : Option Error :=
  p.bind fun a => s.errors[a]?

/-! ## Rendering -/

/-- Go's `<` on strings: the order of the first byte in which they differ, a proper
beginning of a string coming before the string. -/
def strLt : List Char → List Char → Bool
  | _, [] => false
  | [], _ :: _ => true
  | a :: as, b :: bs =>
    if a.toNat < b.toNat then true
    else if b.toNat < a.toNat then false
    else strLt as bs

/-- The order in which `fmt` and `encoding/json` write the entries of a map: by key, the
smaller key first. -/
def keyLE (a b : String × String) : Prop := strLt b.1.data a.1.data = false

instance keyLE.decidable : DecidableRel keyLE := fun a b =>
  inferInstanceAs (Decidable (strLt b.1.data a.1.data = false))

/-- The entries of a map object sorted by key, the order `fmt` and `encoding/json` write
them in. -/
def MapObj.sortedPairs (o : MapObj) : List (String × String) :=
  o.pairs.insertionSort keyLE

/-- The text `fmt` prints for a `map[string]string` operand with the given entries:
`map[k1:v1 k2:v2]`. -/
def mapText (kvs : List (String × String)) : String :=
  "map[" ++ " ".intercalate (kvs.map fun kv => kv.1 ++ ":" ++ kv.2) ++ "]"

/-- Printing a map value: `fmt` writes the entries sorted by key (Go 1.12 and later;
earlier releases left the order unspecified); the nil map prints as `map[]`. -/
def formatMap (h : List MapObj) (m : MapRef) : Option String :=
  (readMap h m).map fun o => mapText o.sortedPairs

/-- The text `fmt.Fprintln` appends to its writer: the printed operands, a space between
every two of them, and a newline at the end. -/
def Sprintln (operands : List String) : String :=
  " ".intercalate operands ++ "\n"

/-- The loop `for i, entry := range err.Stack { fmt.Fprintln(&errorBuffer, "-", i, ...) }`
of `EmitHumanReadable`, started at index `i` with the buffer holding `buf`. -/
def emitEntries (h : List MapObj) : Nat → List StackEntry → String → Option String
  | _, [], buf => some buf
  | i, entry :: rest, buf => do
    let data ← formatMap h entry.Data
    emitEntries h (i + 1) rest
      (buf ++ Sprintln ["-", toString i,
        entry.Host ++ ":" ++ entry.File ++ ":" ++ toString entry.Line, data])

/-- Go `(err Error) EmitHumanReadable()`: returns a human readable error message. -/
def Error.EmitHumanReadable (s : State) (err : Iodine.Error) : Option String := do
  let msg ← err.Error
  emitEntries s.maps 0 err.Stack ("" ++ Sprintln [msg])

/-! ## JSON documents and their text -/

mutual
/-- A JSON document. -/
inductive Json where
  | null
  | str (s : String)
  | num (n : Int)
  | arr (xs : JsonList)
  | obj (kvs : JsonMembers)
/-- The elements of a JSON array. -/
inductive JsonList where
  | nil
  | cons (x : Json) (xs : JsonList)
/-- The members of a JSON object, in document order. -/
inductive JsonMembers where
  | nil
  | cons (k : String) (v : Json) (kvs : JsonMembers)
end

/-- The elements of an array as a list. -/
def JsonList.toList : JsonList → List Json
  | .nil => []
  | .cons x xs => x :: xs.toList

/-- The lower-case hexadecimal digit of a number below 16. -/
def hexDigit (n : Nat) : Char :=
  if n < 10 then Char.ofNat (48 + n) else Char.ofNat (87 + n)

/-- The text `encoding/json` writes for one byte below 0x80 of a string: a short escape
for the quote, the backslash, newline, carriage return and tab; `\u00XX` for the other
control characters and for `<`, `>` and `&`; the byte itself otherwise. (Later releases of
Go write `\b` and `\f` for backspace and form feed, which read back as the same bytes.) -/
def escapeChar (c : Char) : List Char :=
  if c = '"' then ['\\', '"']
  else if c = '\\' then ['\\', '\\']
  else if c = '\n' then ['\\', 'n']
  else if c = '\r' then ['\\', 'r']
  else if c = '\t' then ['\\', 't']
  else if c.toNat < 32 ∨ c = '<' ∨ c = '>' ∨ c = '&' then
    ['\\', 'u', '0', '0', hexDigit (c.toNat / 16), hexDigit (c.toNat % 16)]
  else [c]

/-- The byte `c` lies between `lo` and `hi`. -/
def between (lo hi : Nat) (c : Char) : Bool := decide (lo ≤ c.toNat) && decide (c.toNat ≤ hi)

/-- A continuation byte of UTF-8. -/
def contByte (c : Char) : Bool := between 0x80 0xBF c

/-- The bytes start with a well-formed two-byte sequence of UTF-8. -/
def valid2 : List Char → Bool
  | b0 :: b1 :: _ => between 0xC2 0xDF b0 && contByte b1
  | _ => false

/-- The range `utf8.DecodeRune` accepts for the second byte of a three-byte sequence: no
overlong form after 0xE0, no surrogate after 0xED. -/
def second3 (b0 b1 : Char) : Bool :=
  if b0.toNat = 0xE0 then between 0xA0 0xBF b1
  else if b0.toNat = 0xED then between 0x80 0x9F b1
  else contByte b1

/-- The bytes start with a well-formed three-byte sequence of UTF-8. -/
def valid3 : List Char → Bool
  | b0 :: b1 :: b2 :: _ => between 0xE0 0xEF b0 && second3 b0 b1 && contByte b2
  | _ => false

/-- The range `utf8.DecodeRune` accepts for the second byte of a four-byte sequence: no
overlong form after 0xF0, nothing above U+10FFFF after 0xF4. -/
def second4 (b0 b1 : Char) : Bool :=
  if b0.toNat = 0xF0 then between 0x90 0xBF b1
  else if b0.toNat = 0xF4 then between 0x80 0x8F b1
  else contByte b1

/-- The bytes start with a well-formed four-byte sequence of UTF-8. -/
def valid4 : List Char → Bool
  | b0 :: b1 :: b2 :: b3 :: _ =>
    between 0xF0 0xF4 b0 && second4 b0 b1 && contByte b2 && contByte b3
  | _ => false

/-- The size `utf8.DecodeRune` reports for bytes that start with a byte of 0x80 or above
when they start with a well-formed sequence; `0` stands for its answer `RuneError` with
size 1. -/
def runeLen (cs : List Char) : Nat :=
  if valid2 cs then 2 else if valid3 cs then 3 else if valid4 cs then 4 else 0

/-- The last digit of the escape written for the bytes of U+2028 and U+2029, the two line
separators `encoding/json` escapes. -/
def lineSep : List Char → Option Char
  | b0 :: b1 :: b2 :: _ =>
    if b0 = Char.ofNat 0xE2 ∧ b1 = Char.ofNat 0x80 then
      if b2 = Char.ofNat 0xA8 then some '8'
      else if b2 = Char.ofNat 0xA9 then some '9'
      else none
    else none
  | _ => none

/-- The bytes of U+FFFD, the replacement character. -/
def replacement : List Char := [Char.ofNat 0xEF, Char.ofNat 0xBF, Char.ofNat 0xBD]

/-- The number of bytes one round of the loop of the string encoder consumes. -/
def stepLen : List Char → Nat
  | [] => 1
  | b :: rest =>
    if b.toNat < 0x80 then 1
    else if runeLen (b :: rest) = 0 then 1
    else runeLen (b :: rest)

/-- The text one round of the loop of the string encoder writes: the escape of a byte
below 0x80; `\ufffd` for a byte that starts no well-formed sequence; `\u2028` and `\u2029`
for the line separators; the bytes of any other well-formed sequence as they are. -/
def stepText : List Char → List Char
  | [] => []
  | b :: rest =>
    if b.toNat < 0x80 then escapeChar b
    else if runeLen (b :: rest) = 0 then ['\\', 'u', 'f', 'f', 'f', 'd']
    else
      match lineSep (b :: rest) with
      | some h => ['\\', 'u', '2', '0', '2', h]
      | none => (b :: rest).take (runeLen (b :: rest))

/-- The bytes the text of one round stands for: the bytes consumed, or the replacement
character for a byte that starts no well-formed sequence. -/
def stepBytes : List Char → List Char
  | [] => []
  | b :: rest =>
    if b.toNat < 0x80 then [b]
    else if runeLen (b :: rest) = 0 then replacement
    else (b :: rest).take (runeLen (b :: rest))

/-- The loop of the string encoder, bounded by the number of bytes left. -/
def encodeFuel : Nat → List Char → List Char
  | 0, _ => []
  | _ + 1, [] => []
  | f + 1, b :: rest =>
    stepText (b :: rest) ++ encodeFuel f ((b :: rest).drop (stepLen (b :: rest)))

/-- The text `encoding/json` writes between the quotes for the bytes of a string. -/
def encodeString (cs : List Char) : List Char := encodeFuel cs.length cs

/-- The bytes of a string with every byte that starts no well-formed sequence replaced by
the replacement character. -/
def sanitizeFuel : Nat → List Char → List Char
  | 0, _ => []
  | _ + 1, [] => []
  | f + 1, b :: rest =>
    stepBytes (b :: rest) ++ sanitizeFuel f ((b :: rest).drop (stepLen (b :: rest)))

/-- The string `encoding/json` writes in place of `t`: `t` with each byte that is not part
of a well-formed UTF-8 sequence replaced by U+FFFD. -/
def sanitizeString (t : String) : String := String.mk (sanitizeFuel t.length t.data)

/-- Every byte is below 0x80 or part of a well-formed sequence. -/
def validFuel : Nat → List Char → Bool
  | 0, _ => true
  | _ + 1, [] => true
  | f + 1, b :: rest =>
    (decide (b.toNat < 0x80) || decide (runeLen (b :: rest) ≠ 0))
      && validFuel f ((b :: rest).drop (stepLen (b :: rest)))

/-- The string is valid UTF-8 (`utf8.ValidString`). -/
def ValidUTF8 (t : String) : Prop := validFuel t.length t.data = true

instance ValidUTF8.decidable (t : String) : Decidable (ValidUTF8 t) :=
  inferInstanceAs (Decidable (validFuel t.length t.data = true))

/-- The text of a JSON string: the encoded bytes between quotes. -/
def renderString (s : String) : List Char :=
  '"' :: (encodeString s.data ++ ['"'])

mutual
/-- The compact text `encoding/json` writes for a document: no white space, members and
elements separated by commas. -/
def Json.render : Json → List Char
  | .null => ['n', 'u', 'l', 'l']
  | .str s => renderString s
  | .num n => (toString n).data
  | .arr .nil => ['[', ']']
  | .arr (.cons x xs) => '[' :: (x.render ++ xs.renderTail)
  | .obj .nil => ['{', '}']
  | .obj (.cons k v kvs) => '{' :: (renderString k ++ ':' :: (v.render ++ kvs.renderTail))
/-- The text of the elements after the first, up to the closing bracket. -/
def JsonList.renderTail : JsonList → List Char
  | .nil => [']']
  | .cons x xs => ',' :: (x.render ++ xs.renderTail)
/-- The text of the members after the first, up to the closing brace. -/
def JsonMembers.renderTail : JsonMembers → List Char
  | .nil => ['}']
  | .cons k v kvs => ',' :: (renderString k ++ ':' :: (v.render ++ kvs.renderTail))
end

/-! ## Structured output

`EmitJSON` is `json.Marshal(err)`. `encoding/json` walks the value by reflection: the part of
it that the types of this library reach is embedded below, the declarations of `Error` and
`StackEntry` are given to it as they stand in the source, field names and tags included. -/

/-- The error `json.Marshal` returns for a value it cannot encode. -/
inductive MarshalError where
  | unsupportedType
deriving DecidableEq

mutual
/-- A Go value as reflection sees it. -/
inductive GoValue where
  | string (s : String)
  | int (n : Int)
  | nilMap
  | strMap (kvs : List (String × String))
  | nilSlice
  | slice (vs : GoValues)
  | struct (fs : GoFields)
  | nilIface
  | iface (v : GoValue)
  | unsupported
/-- The elements of a slice. -/
inductive GoValues where
  | nil
  | cons (v : GoValue) (vs : GoValues)
/-- The fields of a struct in declaration order: name, `json` tag (if any) and value. -/
inductive GoFields where
  | nil
  | cons (name : String) (tag : Option String) (v : GoValue) (fs : GoFields)
end

/-- The members of the object written for string entries, in the given order. -/
def membersOfPairs : List (String × String) → JsonMembers
  | [] => .nil
  | kv :: rest => .cons kv.1 (.str kv.2) (membersOfPairs rest)

mutual
/-- The document `json.Marshal` builds for a value: strings and integers as they are, a
map as an object with its keys sorted, a slice as an array, a struct as an object with one
member per field, nil maps, slices and interfaces as `null`, the value inside an interface
as that value; channels, functions and complex numbers give an error. -/
def GoValue.marshal : GoValue → Except MarshalError Json
  | .string s => .ok (.str s)
  | .int n => .ok (.num n)
  | .nilMap => .ok .null
  | .strMap kvs => .ok (.obj (membersOfPairs (kvs.insertionSort keyLE)))
  | .nilSlice => .ok .null
  | .slice vs =>
    match vs.marshal with
    | .ok js => .ok (.arr js)
    | .error err => .error err
  | .struct fs =>
    match fs.marshal with
    | .ok ms => .ok (.obj ms)
    | .error err => .error err
  | .nilIface => .ok .null
  | .iface v => v.marshal
  | .unsupported => .error .unsupportedType
/-- The documents for the elements of a slice. -/
def GoValues.marshal : GoValues → Except MarshalError JsonList
  | .nil => .ok .nil
  | .cons v vs =>
    match v.marshal with
    | .error err => .error err
    | .ok j =>
      match vs.marshal with
      | .error err => .error err
      | .ok js => .ok (.cons j js)
/-- The members for the fields of a struct: a field tagged `json:"-"` is left out, any
other field is written under its tag name, or under its own name if it has no tag. -/
def GoFields.marshal : GoFields → Except MarshalError JsonMembers
  | .nil => .ok .nil
  | .cons name tag v fs =>
    if tag = some "-" then fs.marshal
    else
      match v.marshal with
      | .error err => .error err
      | .ok j =>
        match fs.marshal with
        | .error err => .error err
        | .ok ms => .ok (.cons (tag.getD name) j ms)
end

/-- A `map[string]string` value as reflection sees it. -/
def reflectMap (h : List MapObj) : MapRef → Option GoValue
  | none => some .nilMap
  | some a => (h[a]?).map fun o => .strMap o.pairs

/-- A `StackEntry` as reflection sees it: the fields `Host`, `File`, `Line` and `Data`,
none of them tagged. -/
def StackEntry.reflect (h : List MapObj) (entry : StackEntry) : Option GoValue :=
  (reflectMap h entry.Data).map fun data =>
    .struct (.cons "Host" none (.string entry.Host)
      (.cons "File" none (.string entry.File)
        (.cons "Line" none (.int entry.Line)
          (.cons "Data" none data .nil))))

/-- The elements of a `[]StackEntry` as reflection sees them. -/
def reflectStack (h : List MapObj) : List StackEntry → Option GoValues
  | [] => some .nil
  | entry :: rest =>
    match StackEntry.reflect h entry, reflectStack h rest with
    | some v, some vs => some (.cons v vs)
    | _, _ => none

/-- An `Error` as reflection sees it: `EmbeddedError` tagged `json:"-"`, then
`ErrorMessage` and `Stack`. `dyn` gives the value inside a non-nil `error` interface. A
`Stack` without entries is taken to be the nil slice, the zero value of the field. -/
def Error.reflect (dyn : GoError → GoValue) (h : List MapObj) (err : Iodine.Error) :
    Option GoValue :=
  (reflectStack h err.Stack).map fun vs =>
    .struct (.cons "EmbeddedError" (some "-")
        (match err.EmbeddedError with
          | none => .nilIface
          | some e => .iface (dyn e))
      (.cons "ErrorMessage" none (.string err.ErrorMessage)
        (.cons "Stack" none (if err.Stack.isEmpty then .nilSlice else .slice vs) .nil)))

/-- Go `(err Error) EmitJSON()`: writes JSON output for the error. The result is `none`
when a `Data` refers to no map object of the heap, else what `json.Marshal(err)`
returns: the bytes of the document, or the error. -/
def Error.EmitJSON (dyn : GoError → GoValue) (s : State) (err : Iodine.Error) :
    Option (Except MarshalError String) :=
  (Error.reflect dyn s.maps err).map fun v =>
    match v.marshal with
    | .ok j => .ok (String.mk j.render)
    | .error e => .error e

/-! ## Vocabulary of the statements -/

/-- The lines of a text: every newline ends a line, and characters after the last newline
form a last line. -/
def textLines : List Char → List (List Char)
  | [] => []
  | c :: cs =>
    if c = '\n' then [] :: textLines cs
    else
      match textLines cs with
      | [] => [[c]]
      | l :: ls => (c :: l) :: ls

/-- A string without a newline character. -/
def oneLine (t : String) : Prop := '\n' ∉ t.data

instance oneLine.decidable (t : String) : Decidable (oneLine t) :=
  inferInstanceAs (Decidable ('\n' ∉ t.data))

/-- Every key and every value of the map object is free of newlines. -/
def MapObj.oneLine (o : MapObj) : Prop :=
  ∀ kv ∈ o.pairs, Iodine.oneLine kv.1 ∧ Iodine.oneLine kv.2

instance MapObj.oneLine.decidable (o : MapObj) : Decidable (MapObj.oneLine o) :=
  inferInstanceAs (Decidable (∀ kv ∈ o.pairs, Iodine.oneLine kv.1 ∧ Iodine.oneLine kv.2))

/-- The right-biased merge of a global state `g` and a caller-supplied map `d`, as a
property of a map object `m`: on every key `m` agrees with `d` where `d` has the key and
with `g` elsewhere. -/
def IsMerge (g d m : MapObj) : Prop :=
  ∀ k, m.lookup k = (d.lookup k).orElse fun _ => g.lookup k

/-- Two map objects hold the same mapping: the same keys with the same values. -/
def SameMapping (m g : MapObj) : Prop :=
  ∀ k, m.lookup k = g.lookup k

/-- One call of the library that changes the process state. -/
inductive Op where
  | set (key value : String)
  | clear
  | annotate (c : CallEnv) (err : ErrRef) (info : MapRef)

/-- Runs one call. -/
def Op.run (s : State) : Op → Option State
  | .set key value => SetGlobalState s key value
  | .clear => ClearGlobalState s
  | .annotate c err info => (Error.Annotate s c err info).map Prod.fst

/-- Runs a sequence of calls, first call first. -/
def runOps (s : State) (ops : List Op) : Option State :=
  ops.foldlM Op.run s

/-- The arguments of a call exist in the state: the receiver of `Annotate` points to an
`Error` of the heap and its `info` is nil or a map of the heap. -/
def Op.ok (s : State) : Op → Prop
  | .set _ _ => True
  | .clear => True
  | .annotate _ err info => (∃ p, err = some p ∧ p < s.errors.length) ∧ MapRef.ok s.maps info

/-- The call is no `Annotate` on another `Error` than the one `r` points to. -/
def Op.onReceiver (r : ErrRef) : Op → Prop
  | .set _ _ => True
  | .clear => True
  | .annotate _ err _ => err = r

/-- A run of `Annotate` calls on one receiver, one call per listed pair of collaborator
answers and `info`. -/
def annotateAll (s : State) (err : ErrRef) : List (CallEnv × MapRef) → Option (State × ErrRef)
  | [] => some (s, err)
  | call :: rest => do
    let (s1, _) ← Error.Annotate s call.1 err call.2
    annotateAll s1 err rest

/-- The stack entry that a call with collaborator answers `c` captures when its data map
is allocated at address `a`. -/
def capturedEntry (c : CallEnv) (a : Nat) : StackEntry :=
  { Host := c.Hostname, File := c.CallerFile, Line := c.CallerLine, Data := some a }

/-- A change a caller makes to a map it holds. -/
inductive Mut where
  | assign (k v : String)
  | delete (k : String)

/-- Performs one change on the map `m`. -/
def Mut.run (m : MapRef) (h : List MapObj) : Mut → Option (List MapObj)
  | .assign k v => mapassign h m k v
  | .delete k => mapdelete h m k

/-- Performs a sequence of changes on the map `m`, first change first. -/
def applyMuts (h : List MapObj) (m : MapRef) (muts : List Mut) : Option (List MapObj) :=
  muts.foldlM (Mut.run m) h

/-- The later state `t` keeps what the earlier state `s` holds outside the global store:
the global map has the same address, every other map object of `s` is unchanged, and every
`Error` of `s` keeps its embedded error, its message and its stack entries, in place, with
new entries only after them. -/
structure Keeps (s t : State) : Prop where
  global : t.globalState = s.globalState
  globalLive : t.globalState < t.maps.length
  maps : ∀ (a : Nat) (o : MapObj), a ≠ s.globalState → s.maps[a]? = some o → t.maps[a]? = some o
  mapsLen : s.maps.length ≤ t.maps.length
  errorsLen : s.errors.length ≤ t.errors.length
  errors : ∀ (p : Nat) (obj : Error), s.errors[p]? = some obj →
    ∃ obj2 : Error, t.errors[p]? = some obj2 ∧
    obj2.EmbeddedError = obj.EmbeddedError ∧ obj2.ErrorMessage = obj.ErrorMessage ∧
    obj.Stack <+: obj2.Stack

/-- Successive deletions `delete(o, k)` for the listed keys, first key first. -/
def eraseAll (o : MapObj) (ks : List String) : MapObj :=
  ks.foldl (fun acc k => acc.erase k) o

/-- The mapping a call of `GetGlobalState()` returns in state `s`: the contents of the map
object its result refers to. -/
def globalSnapshot (s : State) : Option MapObj := do
  let (t, r) ← GetGlobalState s
  readMap t.maps r

/-- The stack entries captured by successive calls with the listed collaborator answers
when the first of them allocates its data map at address `a`: every call allocates exactly
one map object. -/
def capturedFrom (a : Nat) : List CallEnv → List StackEntry
  | [] => []
  | c :: cs => capturedEntry c a :: capturedFrom (a + 1) cs

/-- The run of the snapshot test: `SetGlobalState(k, v1)`, `New(e, nil)`,
`ClearGlobalState()`, `SetGlobalState(k, v2)`, then `Annotate(nil)` on the result of `New`. -/
def snapshotScenario (s : State) (c1 c2 : CallEnv) (e : GoError) (k v1 v2 : String) :
    Option (State × ErrRef) := do
  let s1 ← SetGlobalState s k v1
  let (s2, r) ← New s1 c1 (some e) none
  let s3 ← ClearGlobalState s2
  let s4 ← SetGlobalState s3 k v2
  Error.Annotate s4 c2 r none

/-! ## Reading a JSON text back -/

/-- The value of a hexadecimal digit. -/
def hexVal (c : Char) : Option Nat :=
  if c.isDigit then some (c.toNat - 48)
  else if 97 ≤ c.toNat ∧ c.toNat ≤ 102 then some (c.toNat - 87)
  else if 65 ≤ c.toNat ∧ c.toNat ≤ 70 then some (c.toNat - 55)
  else none

/-- The character a one-letter escape stands for. -/
def unescape (c : Char) : Option Char :=
  if c = '"' then some '"'
  else if c = '\\' then some '\\'
  else if c = '/' then some '/'
  else if c = 'n' then some '\n'
  else if c = 'r' then some '\r'
  else if c = 't' then some '\t'
  else if c = 'b' then some (Char.ofNat 8)
  else if c = 'f' then some (Char.ofNat 12)
  else none

/-- The UTF-8 bytes of the code point a `\uXXXX` escape names; a surrogate on its own
gives the replacement character. -/
def utf8Encode (n : Nat) : List Char :=
  if n < 0x80 then [Char.ofNat n]
  else if n < 0x800 then [Char.ofNat (0xC0 + n / 64), Char.ofNat (0x80 + n % 64)]
  else if 0xD800 ≤ n ∧ n < 0xE000 then replacement
  else [Char.ofNat (0xE0 + n / 4096), Char.ofNat (0x80 + n / 64 % 64),
    Char.ofNat (0x80 + n % 64)]

/-- Reads a JSON string after its opening quote: the bytes up to the closing quote,
escapes resolved, and the text after the closing quote. Bytes of 0x80 and above are taken
as they stand: in the texts `Json.render` writes they form well-formed sequences. -/
def parseStr : List Char → Option (List Char × List Char)
  | [] => none
  | c :: rest =>
    if c = '"' then some ([], rest)
    else if c = '\\' then
      match rest with
      | [] => none
      | e :: rest1 =>
        if e = 'u' then
          match rest1 with
          | h1 :: h2 :: h3 :: h4 :: rest2 =>
            match hexVal h1, hexVal h2, hexVal h3, hexVal h4, parseStr rest2 with
            | some a, some b, some c3, some d, some (s, r) =>
              some (utf8Encode (((a * 16 + b) * 16 + c3) * 16 + d) ++ s, r)
            | _, _, _, _, _ => none
          | _ => none
        else
          match unescape e, parseStr rest1 with
          | some ch, some (s, r) => some (ch :: s, r)
          | _, _ => none
    else
      match parseStr rest with
      | some (s, r) => some (c :: s, r)
      | none => none

/-- The number a sequence of decimal digits denotes. -/
def digitsValue (cs : List Char) : Nat :=
  cs.foldl (fun acc c => 10 * acc + (c.toNat - 48)) 0

/-- Reads a non-empty run of decimal digits. -/
def parseNat (cs : List Char) : Option (Nat × List Char) :=
  match cs.span Char.isDigit with
  | ([], _) => none
  | (ds, rest) => some (digitsValue ds, rest)

/-- Reads an integer: an optional minus sign and decimal digits. -/
def parseInt : List Char → Option (Int × List Char)
  | [] => none
  | c :: rest =>
    if c = '-' then (parseNat rest).map fun (n, r) => (-(n : Int), r)
    else (parseNat (c :: rest)).map fun (n, r) => ((n : Int), r)

mutual
/-- Reads one JSON value from the front of a text; the first argument bounds the number of
nested calls. -/
def parseValue : Nat → List Char → Option (Json × List Char)
  | 0, _ => none
  | _ + 1, [] => none
  | f + 1, c :: rest =>
    if c = 'n' then
      match rest with
      | 'u' :: 'l' :: 'l' :: r => some (.null, r)
      | _ => none
    else if c = '"' then
      match parseStr rest with
      | some (s, r) => some (.str (String.mk s), r)
      | none => none
    else if c = '[' then
      match rest with
      | [] => none
      | c2 :: r2 =>
        if c2 = ']' then some (.arr .nil, r2)
        else
          match parseValue f rest with
          | some (x, r) =>
            match parseElems f r with
            | some (xs, r3) => some (.arr (.cons x xs), r3)
            | none => none
          | none => none
    else if c = '{' then
      match rest with
      | [] => none
      | c2 :: r2 =>
        if c2 = '}' then some (.obj .nil, r2)
        else if c2 = '"' then
          match parseStr r2 with
          | some (k, ':' :: r3) =>
            match parseValue f r3 with
            | some (v, r4) =>
              match parseMembers f r4 with
              | some (kvs, r5) => some (.obj (.cons (String.mk k) v kvs), r5)
              | none => none
            | none => none
          | _ => none
        else none
    else
      match parseInt (c :: rest) with
      | some (n, r) => some (.num n, r)
      | none => none
/-- Reads the elements of an array after the first, up to the closing bracket. -/
def parseElems : Nat → List Char → Option (JsonList × List Char)
  | 0, _ => none
  | _ + 1, [] => none
  | f + 1, c :: rest =>
    if c = ']' then some (.nil, rest)
    else if c = ',' then
      match parseValue f rest with
      | some (x, r) =>
        match parseElems f r with
        | some (xs, r2) => some (.cons x xs, r2)
        | none => none
      | none => none
    else none
/-- Reads the members of an object after the first, up to the closing brace. -/
def parseMembers : Nat → List Char → Option (JsonMembers × List Char)
  | 0, _ => none
  | _ + 1, [] => none
  | f + 1, c :: rest =>
    if c = '}' then some (.nil, rest)
    else if c = ',' then
      match rest with
      | '"' :: r1 =>
        match parseStr r1 with
        | some (k, ':' :: r2) =>
          match parseValue f r2 with
          | some (v, r3) =>
            match parseMembers f r3 with
            | some (kvs, r4) => some (.cons (String.mk k) v kvs, r4)
            | none => none
          | none => none
        | _ => none
      | _ => none
    else none
end

mutual
/-- A bound on the nested calls that reading the text of a document takes. -/
def Json.size : Json → Nat
  | .null => 1
  | .str _ => 1
  | .num _ => 1
  | .arr xs => xs.size
  | .obj kvs => kvs.size
/-- The bound for the elements of an array. -/
def JsonList.size : JsonList → Nat
  | .nil => 1
  | .cons x xs => 1 + x.size + xs.size
/-- The bound for the members of an object. -/
def JsonMembers.size : JsonMembers → Nat
  | .nil => 1
  | .cons _ v kvs => 1 + v.size + kvs.size
end

mutual
/-- The document with `sanitizeString` applied to every string and every member name: what
the text written for the document says. -/
def Json.sanitize : Json → Json
  | .null => .null
  | .str s => .str (sanitizeString s)
  | .num n => .num n
  | .arr xs => .arr xs.sanitize
  | .obj kvs => .obj kvs.sanitize
/-- The elements of an array, each sanitized. -/
def JsonList.sanitize : JsonList → JsonList
  | .nil => .nil
  | .cons x xs => .cons x.sanitize xs.sanitize
/-- The members of an object, names and values sanitized. -/
def JsonMembers.sanitize : JsonMembers → JsonMembers
  | .nil => .nil
  | .cons k v kvs => .cons (sanitizeString k) v.sanitize kvs.sanitize
end

/-- A text that does not start with a decimal digit. -/
def NoDigit (rest : List Char) : Prop :=
  ∀ c t, rest = c :: t → c.isDigit = false

/-- Parses a text as one JSON document: the whole text must be the document. -/
def parseJson (t : String) : Option Json :=
  match parseValue (t.length + 1) t.data with
  | some (j, []) => some j
  | _ => none

/-- The document of a stack entry whose `Data` is written as `data`: an object with the
members `Host`, `File`, `Line` and `Data`. -/
def entryDoc (entry : StackEntry) (data : Json) : Json :=
  .obj (.cons "Host" (.str entry.Host)
    (.cons "File" (.str entry.File)
      (.cons "Line" (.num entry.Line)
        (.cons "Data" data .nil))))

/-- The document of an `Error` with the message `msg` whose stack is written as `stack`: an
object with exactly the members `ErrorMessage` and `Stack`. -/
def errorDoc (msg : String) (stack : Json) : Json :=
  .obj (.cons "ErrorMessage" (.str msg) (.cons "Stack" stack .nil))

/-- The document `data` shows the map value `m` of the heap `h`: `null` for the nil map,
else an object whose members are exactly the entries of the map, as strings, in the order
of their keys. -/
def IsDataDoc (h : List MapObj) (m : MapRef) (data : Json) : Prop :=
  match m with
  | none => data = .null
  | some a => ∃ (o : MapObj) (kvs : List (String × String)),
      h[a]? = some o ∧ kvs.Perm o.pairs ∧ kvs.Sorted keyLE ∧ data = .obj (membersOfPairs kvs)

/-- A stack entry with the strings `Host` and `File` as `encoding/json` writes them. -/
def StackEntry.sanitize (entry : StackEntry) : StackEntry :=
  { entry with Host := sanitizeString entry.Host, File := sanitizeString entry.File }

/-- A map entry with its key and value as `encoding/json` writes them. -/
def sanitizePair (kv : String × String) : String × String :=
  (sanitizeString kv.1, sanitizeString kv.2)

/-- Host, file and every key and value of the map of a stack entry are valid UTF-8. -/
def ValidEntry (entry : StackEntry) (o : MapObj) : Prop :=
  ValidUTF8 entry.Host ∧ ValidUTF8 entry.File ∧
    ∀ kv ∈ o.pairs, ValidUTF8 kv.1 ∧ ValidUTF8 kv.2

/-- An `Error` whose cached message differs from the message of its embedded error. -/
def staleError : Error :=
  { EmbeddedError := some ⟨"boom"⟩, ErrorMessage := "stale", Stack := [] }

/-! ## Concrete states used to instantiate the theorems -/

/-- The state at process start: the empty global map and no `Error`. -/
def State.init : State := { maps := [∅], errors := [], globalState := 0 }

/-- A sample of collaborator answers. -/
def sampleEnv : CallEnv := { Hostname := "host", CallerFile := "main.go", CallerLine := 42 }

/-- A second sample of collaborator answers. -/
def sampleEnv2 : CallEnv := { Hostname := "host", CallerFile := "util.go", CallerLine := 7 }

/-- A sample global state: `k ↦ g`. -/
def sampleGlobal : MapObj := AList.insert "k" "g" ∅

/-- A sample caller-supplied map: `k ↦ d, x ↦ y`. -/
def sampleData : MapObj := AList.insert "k" "d" (AList.insert "x" "y" ∅)

/-- A sample `Error` with a one-entry stack whose data map lives at address 2. -/
def sampleError : Error :=
  { EmbeddedError := some ⟨"boom"⟩, ErrorMessage := "boom",
    Stack := [capturedEntry sampleEnv 2] }

/-- A state whose global map (address 0) holds `sampleGlobal`, with the caller map
`sampleData` at address 1, an empty map at address 2 and `sampleError` at address 0 of the
`Error` heap. -/
def sampleState : State :=
  { maps := [sampleGlobal, sampleData, ∅], errors := [sampleError], globalState := 0 }

/-- The text made of the given lines, each ended by a newline. -/
def unlines : List String → String
  | [] => ""
  | l :: ls => l ++ "\n" ++ unlines ls

/-- The line the report shows for the stack entry at index `i` whose data map has the
entries `kvs`, without its newline: `- <index> <host>:<file>:<line> <data>`. -/
def entryLine (i : Nat) (entry : StackEntry) (kvs : List (String × String)) : String :=
  "- " ++ toString i ++ " " ++ entry.Host ++ ":" ++ entry.File ++ ":" ++ toString entry.Line
    ++ " " ++ mapText kvs

/-- A stack entry that prints on one line in the heap `h`: its host and file are free of
newlines, and its `Data` is nil or a map of the heap with keys and values free of
newlines. -/
def StackEntry.oneLine (h : List MapObj) (entry : StackEntry) : Prop :=
  Iodine.oneLine entry.Host ∧ Iodine.oneLine entry.File ∧
    ∃ o, readMap h entry.Data = some o ∧ MapObj.oneLine o

/-- A sample `Error` with two stack entries, whose data maps live at addresses 1 and 2. -/
def sampleError2 : Error :=
  { EmbeddedError := some ⟨"boom"⟩, ErrorMessage := "boom",
    Stack := [capturedEntry sampleEnv 1, capturedEntry sampleEnv2 2] }

/-- The `Error` that `New` makes at process start for an error whose message has two
lines, with the state `New` leaves. -/
def twoLineError : Option (State × Error) := do
  let (s1, r) ← New State.init sampleEnv (some ⟨"disk full\nretry later"⟩) none
  let err ← deref s1 r
  pure (s1, err)

/-- The chained call `err.Annotate(a).Annotate(b)`: the second call runs on the value the
first call returns. -/
def annotateChained (s : State) (c1 c2 : CallEnv) (err : ErrRef) (a b : MapRef) :
    Option (State × ErrRef) := do
  let (s1, r) ← Error.Annotate s c1 err a
  Error.Annotate s1 c2 r b

/-- The two statements `err.Annotate(a)` and then `err.Annotate(b)`: both calls run on
`err`, the value of the first call is dropped. -/
def annotateTwice (s : State) (c1 c2 : CallEnv) (err : ErrRef) (a b : MapRef) :
    Option (State × ErrRef) := do
  let (s1, _) ← Error.Annotate s c1 err a
  Error.Annotate s1 c2 err b

/-- A map object whose entries are stored with the key `b` before the key `a`. -/
def unsortedMap : MapObj := AList.insert "b" "2" (AList.insert "a" "1" ∅)

/-- A state with `unsortedMap` at address 1. -/
def unsortedState : State := { maps := [∅, unsortedMap], errors := [], globalState := 0 }

/-- An `Error` whose one stack entry has the map at address 1 as its `Data`. -/
def unsortedError : Error :=
  { EmbeddedError := some ⟨"boom"⟩, ErrorMessage := "boom",
    Stack := [capturedEntry sampleEnv 1] }

/-- The report for the `Error` of `New(e, nil)` after `SetGlobalState("b", "2")` and
`SetGlobalState("a", "1")` at process start. -/
def sortedReport : Option String := do
  let s1 ← SetGlobalState State.init "b" "2"
  let s2 ← SetGlobalState s1 "a" "1"
  let (s3, r) ← New s2 sampleEnv (some ⟨"boom"⟩) none
  let err ← deref s3 r
  err.EmitHumanReadable s3

/-! ## Properties of the map primitives -/

theorem lt_of_getElem?_some {α : Type} {l : List α} {r : Nat} {x : α} (hx : l[r]? = some x) :
    r < l.length := by
  by_contra hc
  rw [List.getElem?_eq_none (by omega)] at hx
  cases hx

theorem set_same {α : Type} (l : List α) (r : Nat) (x : α) (hx : l[r]? = some x) :
    l.set r x = l := by
  apply List.ext_getElem?
  intro j
  rw [List.getElem?_set]
  by_cases hj : r = j
  · subst hj
    simp [lt_of_getElem?_some hx, hx]
  · simp [hj]

theorem set_append_length {α : Type} (l : List α) (x y : α) :
    (l ++ [x]).set l.length y = l ++ [y] := by
  induction l with
  | nil => rfl
  | cons a t ih => simp [ih]

theorem getElem?_append_some {α : Type} (l t : List α) (a : Nat) (x : α)
    (hx : l[a]? = some x) : (l ++ t)[a]? = some x := by
  rw [List.getElem?_append_left (lt_of_getElem?_some hx)]
  exact hx

theorem readMap_of_ok (h : List MapObj) (m : MapRef) (hm : MapRef.ok h m) :
    ∃ d, readMap h m = some d := by
  cases m with
  | none => exact ⟨∅, rfl⟩
  | some a =>
    have hlt : a < h.length := hm
    exact ⟨h[a], by simp [readMap, List.getElem?_eq_getElem hlt]⟩

theorem ok_append (h t : List MapObj) (m : MapRef) (hm : MapRef.ok h m) :
    MapRef.ok (h ++ t) m := by
  cases m with
  | none => trivial
  | some a =>
    have hlt : a < h.length := hm
    show a < (h ++ t).length
    simp only [List.length_append]
    omega

theorem readMap_append (h t : List MapObj) (m : MapRef) (d : MapObj)
    (hd : readMap h m = some d) : readMap (h ++ t) m = some d := by
  cases m with
  | none => exact hd
  | some a =>
    simp only [readMap] at hd ⊢
    rw [List.getElem?_append_left (lt_of_getElem?_some hd)]
    exact hd

theorem foldlM_mapassign (r : Nat) (kvs : List (String × String)) :
    ∀ (h : List MapObj) (o : MapObj), h[r]? = some o →
      kvs.foldlM (fun acc kv => mapassign acc (some r) kv.1 kv.2) h
        = some (h.set r (insertAll o kvs)) := by
  induction kvs with
  | nil =>
    intro h o ho
    simp [insertAll, set_same h r o ho]
  | cons kv rest ih =>
    intro h o ho
    have hlt : r < h.length := lt_of_getElem?_some ho
    have hset : (h.set r (o.insert kv.1 kv.2))[r]? = some (o.insert kv.1 kv.2) := by
      simp [List.getElem?_set, hlt]
    have h1 : mapassign h (some r) kv.1 kv.2 = some (h.set r (o.insert kv.1 kv.2)) := by
      simp [mapassign, ho]
    rw [List.foldlM_cons, h1, Option.bind_eq_bind, Option.some_bind, ih _ _ hset]
    simp [insertAll]

theorem copyInto_some (h : List MapObj) (src : MapRef) (r : Nat) (d o : MapObj)
    (hd : readMap h src = some d) (ho : h[r]? = some o) :
    copyInto h src (some r) = some (h.set r (insertAll o d.pairs)) := by
  simp only [copyInto, maprange, hd, Option.map_some', Option.bind_eq_bind, Option.some_bind]
  exact foldlM_mapassign r _ h o ho

theorem lookup_insertAll_list (k : String) (l : List (Sigma fun _ : String => String)) :
    ∀ (o : MapObj), l.NodupKeys →
      (insertAll o (l.map fun e => (e.1, e.2))).lookup k
        = (l.dlookup k).orElse fun _ => o.lookup k := by
  induction l with
  | nil => intro o _; simp [insertAll]
  | cons e t ih =>
    intro o hnd
    obtain ⟨a, b⟩ := e
    rw [List.nodupKeys_cons] at hnd
    have step : insertAll o ((⟨a, b⟩ :: t : List (Sigma fun _ : String => String)).map
        fun e => (e.1, e.2)) = insertAll (o.insert a b) (t.map fun e => (e.1, e.2)) := by
      simp [insertAll]
    rw [step, ih _ hnd.2]
    by_cases hk : k = a
    · subst hk
      have : t.dlookup k = none := List.dlookup_eq_none.mpr hnd.1
      simp [this, List.dlookup_cons_eq]
    · have hne : k ≠ a := hk
      rw [List.dlookup_cons_ne _ _ hne, AList.lookup_insert_ne hne]

/-- Copying all entries of `d` over `o` yields the right-biased merge of `o` and `d`. -/
theorem isMerge_insertAll (o d : MapObj) : IsMerge o d (insertAll o d.pairs) := fun k =>
  lookup_insertAll_list k d.entries o d.nodupKeys

/-- Copying all entries of `g` into an empty map yields the mapping of `g`. -/
theorem sameMapping_copy (g : MapObj) : SameMapping (insertAll ∅ g.pairs) g := by
  intro k
  rw [isMerge_insertAll ∅ g k]
  cases g.lookup k <;> simp

/-! ## What the operations compute -/

theorem GetGlobalState_some (s : State) (g : MapObj) (hg : s.maps[s.globalState]? = some g) :
    GetGlobalState s
      = some ({ s with maps := s.maps ++ [insertAll ∅ g.pairs] }, some s.maps.length) := by
  have hlt : s.globalState < s.maps.length := lt_of_getElem?_some hg
  have hsrc : readMap (s.maps ++ [∅]) (some s.globalState) = some g := by
    simp [readMap, List.getElem?_append_left hlt, hg]
  have hdst : (s.maps ++ [(∅ : MapObj)])[s.maps.length]? = some ∅ := by simp
  simp only [GetGlobalState, makemap, copyInto_some _ _ _ g ∅ hsrc hdst, Option.bind_eq_bind,
    Option.some_bind, Option.pure_def]
  simp

theorem createStackEntry_some (s : State) (c : CallEnv) (g : MapObj)
    (hg : s.maps[s.globalState]? = some g) :
    createStackEntry s c
      = some ({ s with maps := s.maps ++ [insertAll ∅ g.pairs] },
              capturedEntry c s.maps.length) := by
  simp [createStackEntry, GetGlobalState_some s g hg, capturedEntry]

theorem capture_some (h : List MapObj) (c : CallEnv) (src : MapRef) (o d : MapObj)
    (hd : readMap h src = some d) :
    copyInto (h ++ [o]) src (capturedEntry c h.length).Data
      = some (h ++ [insertAll o d.pairs]) := by
  have hdst : (h ++ [o])[h.length]? = some o := by simp
  have := copyInto_some _ src h.length d _ (readMap_append _ [o] _ _ hd) hdst
  rw [set_append_length] at this
  exact this

/-- What `New` computes for a non-nil error, a global map holding `g` and caller data
reading as `d`: one new map object holding the entries of `g` overwritten by those of `d`,
and one new `Error` whose stack is the single entry that refers to it. -/
theorem New_some (s : State) (c : CallEnv) (e : GoError) (data : MapRef) (g d : MapObj)
    (hg : s.maps[s.globalState]? = some g) (hd : readMap s.maps data = some d) :
    New s c (some e) data
      = some ({ maps := s.maps ++ [insertAll (insertAll ∅ g.pairs) d.pairs],
                errors := s.errors ++ [{ EmbeddedError := some e, ErrorMessage := e.Error,
                                         Stack := [capturedEntry c s.maps.length] }],
                globalState := s.globalState },
              some s.errors.length) := by
  simp only [New, createStackEntry_some s c g hg, Option.bind_eq_bind, Option.some_bind,
    capture_some s.maps c data _ d hd, Option.pure_def]

/-- What `Annotate` computes for a receiver pointing to `obj`: one new map object, and the
new entry appended to the stack of `obj`. -/
theorem Annotate_some (s : State) (c : CallEnv) (p : Nat) (info : MapRef) (g d : MapObj)
    (obj : Error) (hg : s.maps[s.globalState]? = some g) (hd : readMap s.maps info = some d)
    (hp : s.errors[p]? = some obj) :
    Error.Annotate s c (some p) info
      = some ({ maps := s.maps ++ [insertAll (insertAll ∅ g.pairs) d.pairs],
                errors := s.errors.set p
                  { obj with Stack := obj.Stack ++ [capturedEntry c s.maps.length] },
                globalState := s.globalState },
              some p) := by
  simp only [Error.Annotate, createStackEntry_some s c g hg, Option.bind_eq_bind,
    Option.some_bind, capture_some s.maps c info _ d hd, hp, Option.pure_def]

theorem SetGlobalState_some (s : State) (key value : String) (g : MapObj)
    (hg : s.maps[s.globalState]? = some g) :
    SetGlobalState s key value
      = some { s with maps := s.maps.set s.globalState (g.insert key value) } := by
  simp [SetGlobalState, mapassign, hg]

theorem foldlM_mapdelete (r : Nat) (ks : List (String × String)) :
    ∀ (h : List MapObj) (o : MapObj), h[r]? = some o →
      ks.foldlM (fun acc kv => mapdelete acc (some r) kv.1) h
        = some (h.set r (eraseAll o (ks.map Prod.fst))) := by
  induction ks with
  | nil =>
    intro h o ho
    simp [eraseAll, set_same h r o ho]
  | cons kv rest ih =>
    intro h o ho
    have hlt : r < h.length := lt_of_getElem?_some ho
    have hset : (h.set r (o.erase kv.1))[r]? = some (o.erase kv.1) := by
      simp [List.getElem?_set, hlt]
    have h1 : mapdelete h (some r) kv.1 = some (h.set r (o.erase kv.1)) := by
      simp [mapdelete, ho]
    rw [List.foldlM_cons, h1, Option.bind_eq_bind, Option.some_bind, ih _ _ hset]
    simp [eraseAll]

theorem lookup_eraseAll (k : String) (ks : List String) :
    ∀ o : MapObj, (eraseAll o ks).lookup k = if k ∈ ks then none else o.lookup k := by
  induction ks with
  | nil => intro o; simp [eraseAll]
  | cons a t ih =>
    intro o
    have step : eraseAll o (a :: t) = eraseAll (o.erase a) t := by simp [eraseAll]
    rw [step, ih]
    by_cases hkt : k ∈ t
    · simp [hkt]
    · by_cases hka : k = a
      · subst hka
        simp [hkt]
      · simp [hkt, hka, AList.lookup_erase_ne hka]

theorem eq_empty_of_lookup_none (o : MapObj) (h : ∀ k, o.lookup k = none) : o = ∅ := by
  apply AList.ext
  cases hent : o.entries with
  | nil => rfl
  | cons e t =>
    exfalso
    have hmem : e.1 ∈ o := by
      rw [AList.mem_keys, AList.keys, hent]
      simp [List.keys]
    exact (AList.lookup_eq_none.mp (h e.1)) hmem

/-- Deleting every key that a range over `o` visits leaves the empty map. -/
theorem eraseAll_all (o : MapObj) : eraseAll o (o.pairs.map Prod.fst) = ∅ := by
  apply eq_empty_of_lookup_none
  intro k
  rw [lookup_eraseAll]
  by_cases hk : k ∈ o.pairs.map Prod.fst
  · simp [hk]
  · rw [if_neg hk, AList.lookup_eq_none, AList.mem_keys]
    intro hmem
    apply hk
    simpa [MapObj.pairs, AList.keys, List.keys] using hmem

theorem ClearGlobalState_some (s : State) (g : MapObj)
    (hg : s.maps[s.globalState]? = some g) :
    ClearGlobalState s = some { s with maps := s.maps.set s.globalState ∅ } := by
  have hr : readMap s.maps (some s.globalState) = some g := hg
  simp only [ClearGlobalState, maprange, hr, Option.map_some', Option.bind_eq_bind,
    Option.some_bind, foldlM_mapdelete _ _ _ g hg, eraseAll_all, Option.pure_def]

theorem globalSnapshot_some (s : State) (g : MapObj) (hg : s.maps[s.globalState]? = some g) :
    globalSnapshot s = some (insertAll ∅ g.pairs) := by
  simp [globalSnapshot, GetGlobalState_some s g hg, readMap]

theorem getElem?_set_self_some {α : Type} (l : List α) (r : Nat) (x y : α)
    (hx : l[r]? = some x) : (l.set r y)[r]? = some y := by
  simp [List.getElem?_set, lt_of_getElem?_some hx]

theorem getElem?_set_other {α : Type} (l : List α) (r a : Nat) (y : α) (hne : a ≠ r) :
    (l.set r y)[a]? = l[a]? := by
  rw [List.getElem?_set, if_neg (fun h => hne h.symm)]

/-- Changes made through a reference reach only the object it refers to. -/
theorem applyMuts_some (r : Nat) (muts : List Mut) :
    ∀ (h : List MapObj) (o : MapObj), h[r]? = some o →
      ∃ h2, applyMuts h (some r) muts = some h2 ∧ h2.length = h.length ∧
        ∀ a, a ≠ r → h2[a]? = h[a]? := by
  induction muts with
  | nil =>
    intro h o _
    exact ⟨h, rfl, rfl, fun _ _ => rfl⟩
  | cons mu rest ih =>
    intro h o ho
    have hstep : ∃ o2, Mut.run (some r) h mu = some (h.set r o2) := by
      cases mu with
      | assign k v => exact ⟨o.insert k v, by simp [Mut.run, mapassign, ho]⟩
      | delete k => exact ⟨o.erase k, by simp [Mut.run, mapdelete, ho]⟩
    obtain ⟨o2, ho2⟩ := hstep
    obtain ⟨h2, hrun, hlen, hother⟩ := ih (h.set r o2) o2 (getElem?_set_self_some h r o o2 ho)
    refine ⟨h2, ?_, ?_, ?_⟩
    · simp only [applyMuts, List.foldlM_cons, ho2, Option.bind_eq_bind, Option.some_bind]
      exact hrun
    · rw [hlen, List.length_set]
    · intro a ha
      rw [hother a ha, getElem?_set_other h r a o2 ha]

/-- The keys of a right-biased merge are the keys of either map. -/
theorem mem_of_isMerge (g d m : MapObj) (hm : IsMerge g d m) (k : String) :
    k ∈ m ↔ k ∈ g ∨ k ∈ d := by
  rw [← AList.lookup_isSome, ← AList.lookup_isSome, ← AList.lookup_isSome, hm k]
  cases d.lookup k <;> cases g.lookup k <;> simp

/-- In a right-biased merge a key of the caller-supplied map carries the caller's value. -/
theorem isMerge_override (g d m : MapObj) (hm : IsMerge g d m) (k v : String)
    (hk : d.lookup k = some v) : m.lookup k = some v := by
  rw [hm k, hk]
  rfl

/-! ## Frame: what later calls keep -/

theorem Keeps.refl (s : State) (hlive : s.globalState < s.maps.length) : Keeps s s :=
  { global := rfl
    globalLive := hlive
    maps := fun _ _ _ h => h
    mapsLen := Nat.le_refl _
    errorsLen := Nat.le_refl _
    errors := fun _ obj h => ⟨obj, h, rfl, rfl, List.prefix_refl _⟩ }

theorem Keeps.trans {s t u : State} (h1 : Keeps s t) (h2 : Keeps t u) : Keeps s u :=
  { global := h2.global.trans h1.global
    globalLive := h2.globalLive
    maps := fun a o ha h => h2.maps a o (by rw [h1.global]; exact ha) (h1.maps a o ha h)
    mapsLen := Nat.le_trans h1.mapsLen h2.mapsLen
    errorsLen := Nat.le_trans h1.errorsLen h2.errorsLen
    errors := fun p obj h => by
      obtain ⟨o1, ho1, he1, hm1, hs1⟩ := h1.errors p obj h
      obtain ⟨o2, ho2, he2, hm2, hs2⟩ := h2.errors p o1 ho1
      exact ⟨o2, ho2, he2.trans he1, hm2.trans hm1, hs1.trans hs2⟩ }

/-- Replacing the global map object keeps everything else. -/
theorem keeps_set_global (s : State) (g o : MapObj) (hg : s.maps[s.globalState]? = some g) :
    Keeps s { s with maps := s.maps.set s.globalState o } :=
  { global := rfl
    globalLive := by
      show s.globalState < (s.maps.set s.globalState o).length
      rw [List.length_set]
      exact lt_of_getElem?_some hg
    maps := fun a m ha h => by
      show (s.maps.set s.globalState o)[a]? = some m
      rw [getElem?_set_other _ _ _ _ ha]
      exact h
    mapsLen := by
      show s.maps.length ≤ (s.maps.set s.globalState o).length
      rw [List.length_set]
    errorsLen := Nat.le_refl _
    errors := fun _ obj h => ⟨obj, h, rfl, rfl, List.prefix_refl _⟩ }

/-- Allocating a map object and appending an entry to one stack keeps everything else. -/
theorem keeps_annotate (s : State) (p : Nat) (obj : Error) (x : MapObj) (entry : StackEntry)
    (hlive : s.globalState < s.maps.length) (hp : s.errors[p]? = some obj) :
    Keeps s { maps := s.maps ++ [x],
              errors := s.errors.set p { obj with Stack := obj.Stack ++ [entry] },
              globalState := s.globalState } :=
  { global := rfl
    globalLive := by
      show s.globalState < (s.maps ++ [x]).length
      rw [List.length_append]
      omega
    maps := fun a m _ h => getElem?_append_some _ _ _ _ h
    mapsLen := by
      show s.maps.length ≤ (s.maps ++ [x]).length
      rw [List.length_append]
      omega
    errorsLen := by
      show s.errors.length ≤ (s.errors.set p _).length
      rw [List.length_set]
    errors := fun q o h => by
      by_cases hq : q = p
      · subst hq
        have ho : o = obj := Option.some.inj (h.symm.trans hp)
        subst ho
        exact ⟨_, getElem?_set_self_some _ _ _ _ hp, rfl, rfl, List.prefix_append _ _⟩
      · refine ⟨o, ?_, rfl, rfl, List.prefix_refl _⟩
        show (s.errors.set p _)[q]? = some o
        rw [getElem?_set_other _ _ _ _ hq]
        exact h }

theorem Op.ok_of_keeps {s t : State} (hk : Keeps s t) (op : Op) (hop : Op.ok s op) :
    Op.ok t op := by
  cases op with
  | set key value => trivial
  | clear => trivial
  | annotate c err info =>
    obtain ⟨⟨p, hp, hlt⟩, hinfo⟩ := hop
    refine ⟨⟨p, hp, Nat.lt_of_lt_of_le hlt hk.errorsLen⟩, ?_⟩
    cases info with
    | none => trivial
    | some a => exact Nat.lt_of_lt_of_le (show a < s.maps.length from hinfo) hk.mapsLen

/-- Every call whose arguments exist runs, and keeps what the state held outside the global
store. -/
theorem Op.run_keeps (s : State) (op : Op) (hlive : s.globalState < s.maps.length)
    (hop : Op.ok s op) : ∃ t, Op.run s op = some t ∧ Keeps s t := by
  have hg : s.maps[s.globalState]? = some s.maps[s.globalState] :=
    List.getElem?_eq_getElem hlive
  cases op with
  | set key value =>
    exact ⟨_, SetGlobalState_some s key value _ hg, keeps_set_global s _ _ hg⟩
  | clear =>
    exact ⟨_, ClearGlobalState_some s _ hg, keeps_set_global s _ _ hg⟩
  | annotate c err info =>
    obtain ⟨⟨p, hp, hlt⟩, hinfo⟩ := hop
    subst hp
    obtain ⟨d, hd⟩ := readMap_of_ok s.maps info hinfo
    have hobj : s.errors[p]? = some s.errors[p] := List.getElem?_eq_getElem hlt
    have hrun := Annotate_some s c p info _ d _ hg hd hobj
    refine ⟨_, ?_, keeps_annotate s p _
      (insertAll (insertAll ∅ (MapObj.pairs s.maps[s.globalState])) d.pairs)
      (capturedEntry c s.maps.length) hlive hobj⟩
    simp only [Op.run, hrun, Option.map_some']

theorem runOps_keeps (ops : List Op) :
    ∀ s : State, s.globalState < s.maps.length → (∀ op ∈ ops, Op.ok s op) →
      ∃ t, runOps s ops = some t ∧ Keeps s t := by
  induction ops with
  | nil =>
    intro s hlive _
    exact ⟨s, rfl, Keeps.refl s hlive⟩
  | cons op rest ih =>
    intro s hlive hok
    obtain ⟨t1, hrun1, hk1⟩ := Op.run_keeps s op hlive (hok op (List.mem_cons_self _ _))
    obtain ⟨t, hrun, hk⟩ := ih t1 hk1.globalLive
      (fun o ho => Op.ok_of_keeps hk1 o (hok o (List.mem_cons_of_mem _ ho)))
    refine ⟨t, ?_, hk1.trans hk⟩
    simp only [runOps, List.foldlM_cons, hrun1, Option.bind_eq_bind, Option.some_bind]
    exact hrun

theorem getElem?_of_prefix {α : Type} {l1 l2 : List α} (h : l1 <+: l2) (i : Nat) (x : α)
    (hx : l1[i]? = some x) : l2[i]? = some x := by
  obtain ⟨t, rfl⟩ := h
  exact getElem?_append_some _ _ _ _ hx

/-- The facts about `SetGlobalState` and `ClearGlobalState` that a chain of calls needs:
the global map object is replaced, nothing else moves. -/
theorem store_write_facts (s : State) (g o : MapObj) (hg : s.maps[s.globalState]? = some g) :
    ∀ t : State, t = { s with maps := s.maps.set s.globalState o } →
      t.globalState = s.globalState ∧ t.maps[t.globalState]? = some o ∧
      t.maps.length = s.maps.length ∧ t.errors = s.errors ∧
      ∀ a, a ≠ s.globalState → t.maps[a]? = s.maps[a]? := by
  intro t ht
  subst ht
  exact ⟨rfl, getElem?_set_self_some _ _ _ _ hg, List.length_set _ _ _, rfl,
    fun a ha => getElem?_set_other _ _ _ _ ha⟩

/-- The facts about a capture (by `New` or `Annotate`) that a chain of calls needs: one map
object is appended, the older ones stay. -/
theorem capture_facts (s : State) (g x : MapObj) (errs : List Error)
    (hg : s.maps[s.globalState]? = some g) :
    ∀ t : State, t = { maps := s.maps ++ [x], errors := errs, globalState := s.globalState } →
      t.globalState = s.globalState ∧ t.maps[t.globalState]? = some g ∧
      t.maps.length = s.maps.length + 1 ∧ t.errors = errs ∧
      t.maps[s.maps.length]? = some x ∧
      ∀ (a : Nat) (o : MapObj), s.maps[a]? = some o → t.maps[a]? = some o := by
  intro t ht
  subst ht
  refine ⟨rfl, getElem?_append_some _ _ _ _ hg, by simp, rfl, by simp,
    fun a o ho => getElem?_append_some _ _ _ _ ho⟩

/-- The mapping captured when the global state is `g` and the caller supplies nothing. -/
theorem lookup_capture_nil (g : MapObj) (k : String) :
    (insertAll (insertAll ∅ g.pairs) (MapObj.pairs ∅)).lookup k = g.lookup k :=
  sameMapping_copy g k

theorem SetGlobalState_facts (s : State) (g : MapObj) (k v : String)
    (hg : s.maps[s.globalState]? = some g) :
    ∃ t, SetGlobalState s k v = some t ∧ t.globalState = s.globalState ∧
      t.maps[t.globalState]? = some (g.insert k v) ∧ t.maps.length = s.maps.length ∧
      t.errors = s.errors ∧ ∀ a, a ≠ s.globalState → t.maps[a]? = s.maps[a]? :=
  ⟨_, SetGlobalState_some s k v g hg, store_write_facts s g _ hg _ rfl⟩

theorem ClearGlobalState_facts (s : State) (g : MapObj)
    (hg : s.maps[s.globalState]? = some g) :
    ∃ t, ClearGlobalState s = some t ∧ t.globalState = s.globalState ∧
      t.maps[t.globalState]? = some ∅ ∧ t.maps.length = s.maps.length ∧
      t.errors = s.errors ∧ ∀ a, a ≠ s.globalState → t.maps[a]? = s.maps[a]? :=
  ⟨_, ClearGlobalState_some s g hg, store_write_facts s g _ hg _ rfl⟩

theorem New_facts (s : State) (c : CallEnv) (e : GoError) (data : MapRef) (g d : MapObj)
    (hg : s.maps[s.globalState]? = some g) (hd : readMap s.maps data = some d) :
    ∃ t, New s c (some e) data = some (t, some s.errors.length) ∧
      t.globalState = s.globalState ∧ t.maps[t.globalState]? = some g ∧
      t.maps.length = s.maps.length + 1 ∧
      t.errors = s.errors ++ [⟨some e, e.Error, [capturedEntry c s.maps.length]⟩] ∧
      t.maps[s.maps.length]? = some (insertAll (insertAll ∅ g.pairs) d.pairs) ∧
      ∀ (a : Nat) (o : MapObj), s.maps[a]? = some o → t.maps[a]? = some o :=
  ⟨_, New_some s c e data g d hg hd, capture_facts s g _ _ hg _ rfl⟩

theorem Annotate_facts (s : State) (c : CallEnv) (p : Nat) (info : MapRef) (g d : MapObj)
    (obj : Error) (hg : s.maps[s.globalState]? = some g) (hd : readMap s.maps info = some d)
    (hp : s.errors[p]? = some obj) :
    ∃ t, Error.Annotate s c (some p) info = some (t, some p) ∧
      t.globalState = s.globalState ∧ t.maps[t.globalState]? = some g ∧
      t.maps.length = s.maps.length + 1 ∧
      t.errors = s.errors.set p
        ⟨obj.EmbeddedError, obj.ErrorMessage, obj.Stack ++ [capturedEntry c s.maps.length]⟩ ∧
      t.maps[s.maps.length]? = some (insertAll (insertAll ∅ g.pairs) d.pairs) ∧
      ∀ (a : Nat) (o : MapObj), s.maps[a]? = some o → t.maps[a]? = some o :=
  ⟨_, Annotate_some s c p info g d obj hg hd hp, capture_facts s g _ _ hg _ rfl⟩

/-- The snapshot test, for every start state: the first entry shows `v1`, the second `v2`. -/
theorem snapshotScenario_some (s : State) (c1 c2 : CallEnv) (e : GoError) (g : MapObj)
    (k v1 v2 : String) (hg : s.maps[s.globalState]? = some g) :
    ∃ s5 r obj5 e1 e2 m1 m2, snapshotScenario s c1 c2 e k v1 v2 = some (s5, r) ∧
      deref s5 r = some obj5 ∧ obj5.Stack = [e1, e2] ∧
      readMap s5.maps e1.Data = some m1 ∧ readMap s5.maps e2.Data = some m2 ∧
      m1.lookup k = some v1 ∧ m2.lookup k = some v2 := by
  have hlive : s.globalState < s.maps.length := lt_of_getElem?_some hg
  obtain ⟨s1, h1, hgs1, hg1, hlen1, herr1, _⟩ := SetGlobalState_facts s g k v1 hg
  obtain ⟨s2, h2, hgs2, hg2, hlen2, herr2, hnew2, _⟩ :=
    New_facts s1 c1 e none (g.insert k v1) ∅ hg1 rfl
  obtain ⟨s3, h3, hgs3, hg3, hlen3, herr3, hkeep3⟩ := ClearGlobalState_facts s2 _ hg2
  obtain ⟨s4, h4, hgs4, hg4, hlen4, herr4, hkeep4⟩ := SetGlobalState_facts s3 ∅ k v2 hg3
  have hp4 : s4.errors[s1.errors.length]?
      = some ⟨some e, e.Error, [capturedEntry c1 s1.maps.length]⟩ := by
    rw [herr4, herr3, herr2]
    simp
  obtain ⟨s5, h5, _, _, _, herr5, hnew5, hkeep5⟩ :=
    Annotate_facts s4 c2 s1.errors.length none (AList.insert k v2 ∅) ∅ _ hg4 rfl hp4
  have hne : s1.maps.length ≠ s.globalState := by omega
  have hm1 : s5.maps[s1.maps.length]? = some
      (insertAll (insertAll ∅ (MapObj.pairs (g.insert k v1))) (MapObj.pairs ∅)) := by
    apply hkeep5
    rw [hkeep4 _ (by rw [hgs3, hgs2, hgs1]; exact hne),
      hkeep3 _ (by rw [hgs2, hgs1]; exact hne)]
    exact hnew2
  refine ⟨s5, some s1.errors.length,
    ⟨some e, e.Error, [capturedEntry c1 s1.maps.length, capturedEntry c2 s4.maps.length]⟩,
    capturedEntry c1 s1.maps.length, capturedEntry c2 s4.maps.length, _, _, ?_, ?_, rfl, hm1,
    hnew5, ?_, ?_⟩
  · simp only [snapshotScenario, h1, h2, h3, h4, h5, Option.bind_eq_bind, Option.some_bind]
  · simp only [deref, Option.some_bind, herr5]
    exact getElem?_set_self_some _ _ _ _ hp4
  · rw [lookup_capture_nil, AList.lookup_insert]
  · rw [lookup_capture_nil, AList.lookup_insert]

/-! ## The claims -/

/-- C1: for every non-nil underlying error `e`, every data map (nil included) and every
global state, calling `Error()` on the result of `New(e, d)` returns exactly `e.Error()`. -/
theorem New_Error_eq (s : State) (c : CallEnv) (e : GoError) (data : MapRef) (g d : MapObj)
    (hg : s.maps[s.globalState]? = some g) (hd : readMap s.maps data = some d) :
    ∃ s1 p, New s c (some e) data = some (s1, p) ∧
      (deref s1 p).bind Error.Error = some e.Error := by
  refine ⟨_, _, New_some s c e data g d hg hd, ?_⟩
  simp [deref, Error.Error]

theorem New_Error_eq_witness :
    ∃ s1 p, New sampleState sampleEnv (some ⟨"boom"⟩) (some 1) = some (s1, p) ∧
      (deref s1 p).bind Error.Error = some "boom" :=
  New_Error_eq sampleState sampleEnv ⟨"boom"⟩ (some 1) sampleGlobal sampleData rfl rfl

/-- C3: for every non-nil error `e` and every data map, the `Error` that `New(e, d)`
returns has a stack of exactly one entry. -/
theorem New_stack_single (s : State) (c : CallEnv) (e : GoError) (data : MapRef)
    (g d : MapObj) (hg : s.maps[s.globalState]? = some g)
    (hd : readMap s.maps data = some d) :
    ∃ s1 p obj, New s c (some e) data = some (s1, p) ∧ deref s1 p = some obj ∧
      obj.Stack.length = 1 :=
  ⟨_, _, ⟨some e, e.Error, [capturedEntry c s.maps.length]⟩, New_some s c e data g d hg hd,
    by simp [deref], rfl⟩

theorem New_stack_single_witness :
    ∃ s1 p obj, New State.init sampleEnv (some ⟨"boom"⟩) none = some (s1, p) ∧
      deref s1 p = some obj ∧ obj.Stack.length = 1 :=
  New_stack_single State.init sampleEnv ⟨"boom"⟩ none ∅ ∅ rfl rfl

/-- C4: for every global state `g` and every caller-supplied map `d`, the `Data` of the
entry captured by `New(e, d)`, and likewise of the entry appended by `Annotate(d)`, is the
right-biased merge of `g` and `d`: its keys are those of `g` or `d`, it maps a key of `d` to
the value `d` gives it and any other key as `g` does. -/
theorem captured_data_merge (s : State) (c : CallEnv) (e : GoError) (data : MapRef)
    (p : Nat) (obj : Error) (g d : MapObj) (hg : s.maps[s.globalState]? = some g)
    (hd : readMap s.maps data = some d) (hp : s.errors[p]? = some obj) :
    (∃ s1 r obj1 entry m, New s c (some e) data = some (s1, r) ∧ deref s1 r = some obj1 ∧
        obj1.Stack = [entry] ∧ readMap s1.maps entry.Data = some m ∧ IsMerge g d m ∧
        (∀ k, k ∈ m ↔ k ∈ g ∨ k ∈ d) ∧ ∀ k v, d.lookup k = some v → m.lookup k = some v) ∧
    (∃ s1 r obj1 entry m, Error.Annotate s c (some p) data = some (s1, r) ∧
        deref s1 r = some obj1 ∧ obj1.Stack = obj.Stack ++ [entry] ∧
        readMap s1.maps entry.Data = some m ∧ IsMerge g d m ∧
        (∀ k, k ∈ m ↔ k ∈ g ∨ k ∈ d) ∧ ∀ k v, d.lookup k = some v → m.lookup k = some v) := by
  have hm : IsMerge g d (insertAll (insertAll ∅ g.pairs) d.pairs) := by
    intro k
    rw [isMerge_insertAll (insertAll ∅ g.pairs) d k, sameMapping_copy g k]
  constructor
  · refine ⟨_, _, ⟨some e, e.Error, [capturedEntry c s.maps.length]⟩,
      capturedEntry c s.maps.length, _, New_some s c e data g d hg hd, ?_, rfl,
      ?_, hm, mem_of_isMerge g d _ hm, isMerge_override g d _ hm⟩
    · simp [deref]
    · simp [readMap, capturedEntry]
  · refine ⟨_, _, { obj with Stack := obj.Stack ++ [capturedEntry c s.maps.length] },
      capturedEntry c s.maps.length, _,
      Annotate_some s c p data g d obj hg hd hp, ?_, rfl, ?_, hm, mem_of_isMerge g d _ hm,
      isMerge_override g d _ hm⟩
    · simp only [deref, Option.some_bind]
      exact getElem?_set_self_some _ _ _ _ hp
    · simp [readMap, capturedEntry]

theorem captured_data_merge_witness :
    (∃ s1 r obj1 entry m, New sampleState sampleEnv (some ⟨"boom"⟩) (some 1) = some (s1, r) ∧
        deref s1 r = some obj1 ∧ obj1.Stack = [entry] ∧
        readMap s1.maps entry.Data = some m ∧ IsMerge sampleGlobal sampleData m ∧
        (∀ k, k ∈ m ↔ k ∈ sampleGlobal ∨ k ∈ sampleData) ∧
        ∀ k v, sampleData.lookup k = some v → m.lookup k = some v) ∧
    (∃ s1 r obj1 entry m,
        Error.Annotate sampleState sampleEnv (some 0) (some 1) = some (s1, r) ∧
        deref s1 r = some obj1 ∧ obj1.Stack = sampleError.Stack ++ [entry] ∧
        readMap s1.maps entry.Data = some m ∧ IsMerge sampleGlobal sampleData m ∧
        (∀ k, k ∈ m ↔ k ∈ sampleGlobal ∨ k ∈ sampleData) ∧
        ∀ k v, sampleData.lookup k = some v → m.lookup k = some v) :=
  captured_data_merge sampleState sampleEnv ⟨"boom"⟩ (some 1) 0 sampleError sampleGlobal
    sampleData rfl rfl rfl

/-- C6: `New` and `Annotate` never mutate the global store: for every global state `g` and
every caller-supplied map `d`, colliding keys included, the global map object still holds `g`
after the call and `GetGlobalState()` returns the same mapping after the call as before. -/
theorem global_store_untouched (s : State) (c : CallEnv) (e : GoError) (data : MapRef)
    (p : Nat) (obj : Error) (g d : MapObj) (hg : s.maps[s.globalState]? = some g)
    (hd : readMap s.maps data = some d) (hp : s.errors[p]? = some obj) :
    (∃ s1 r m, New s c (some e) data = some (s1, r) ∧ s1.globalState = s.globalState ∧
        s1.maps[s1.globalState]? = some g ∧ globalSnapshot s = some m ∧
        globalSnapshot s1 = some m ∧ SameMapping m g) ∧
    (∃ s1 r m, Error.Annotate s c (some p) data = some (s1, r) ∧
        s1.globalState = s.globalState ∧ s1.maps[s1.globalState]? = some g ∧
        globalSnapshot s = some m ∧ globalSnapshot s1 = some m ∧ SameMapping m g) := by
  constructor
  · refine ⟨_, _, _, New_some s c e data g d hg hd, rfl, getElem?_append_some _ _ _ _ hg,
      globalSnapshot_some s g hg, ?_, sameMapping_copy g⟩
    exact globalSnapshot_some _ g (getElem?_append_some _ _ _ _ hg)
  · refine ⟨_, _, _, Annotate_some s c p data g d obj hg hd hp, rfl,
      getElem?_append_some _ _ _ _ hg, globalSnapshot_some s g hg, ?_, sameMapping_copy g⟩
    exact globalSnapshot_some _ g (getElem?_append_some _ _ _ _ hg)

theorem global_store_untouched_witness :
    (∃ s1 r m, New sampleState sampleEnv (some ⟨"boom"⟩) (some 1) = some (s1, r) ∧
        s1.globalState = sampleState.globalState ∧
        s1.maps[s1.globalState]? = some sampleGlobal ∧ globalSnapshot sampleState = some m ∧
        globalSnapshot s1 = some m ∧ SameMapping m sampleGlobal) ∧
    (∃ s1 r m, Error.Annotate sampleState sampleEnv (some 0) (some 1) = some (s1, r) ∧
        s1.globalState = sampleState.globalState ∧
        s1.maps[s1.globalState]? = some sampleGlobal ∧ globalSnapshot sampleState = some m ∧
        globalSnapshot s1 = some m ∧ SameMapping m sampleGlobal) :=
  global_store_untouched sampleState sampleEnv ⟨"boom"⟩ (some 1) 0 sampleError sampleGlobal
    sampleData rfl rfl rfl

/-- C7: for every global state `g`, `GetGlobalState()` returns a mapping with exactly the
keys and values of `g` and leaves the store (and every other object) unchanged; the returned
map is a new object, so whatever insertions, overwrites and deletions the caller performs on
it, the store still holds `g` and a later `GetGlobalState()` still returns the mapping `g`. -/
theorem GetGlobalState_copy (s : State) (g : MapObj) (hg : s.maps[s.globalState]? = some g) :
    ∃ t r m, GetGlobalState s = some (t, some r) ∧ readMap t.maps (some r) = some m ∧
      SameMapping m g ∧ t.globalState = s.globalState ∧ t.errors = s.errors ∧
      (∀ (a : Nat) (o : MapObj), s.maps[a]? = some o → t.maps[a]? = some o) ∧
      ∀ muts : List Mut, ∃ h2 m2, applyMuts t.maps (some r) muts = some h2 ∧
        h2[t.globalState]? = some g ∧
        globalSnapshot { t with maps := h2 } = some m2 ∧ SameMapping m2 g := by
  have hlt : s.globalState < s.maps.length := lt_of_getElem?_some hg
  refine ⟨_, s.maps.length, insertAll ∅ g.pairs, GetGlobalState_some s g hg, ?_,
    sameMapping_copy g, rfl, rfl, fun a o ho => getElem?_append_some _ _ _ _ ho, ?_⟩
  · simp [readMap]
  · intro muts
    have hr : (s.maps ++ [insertAll ∅ g.pairs])[s.maps.length]? = some (insertAll ∅ g.pairs) := by
      simp
    obtain ⟨h2, hrun, _, hother⟩ := applyMuts_some s.maps.length muts _ _ hr
    have hg2 : h2[s.globalState]? = some g := by
      rw [hother s.globalState (by omega)]
      exact getElem?_append_some _ _ _ _ hg
    exact ⟨h2, _, hrun, hg2, globalSnapshot_some _ g hg2, sameMapping_copy g⟩

theorem GetGlobalState_copy_witness :
    ∃ t r m, GetGlobalState sampleState = some (t, some r) ∧
      readMap t.maps (some r) = some m ∧
      SameMapping m sampleGlobal ∧ t.globalState = sampleState.globalState ∧
      t.errors = sampleState.errors ∧
      (∀ (a : Nat) (o : MapObj), sampleState.maps[a]? = some o → t.maps[a]? = some o) ∧
      ∀ muts : List Mut, ∃ h2 m2, applyMuts t.maps (some r) muts = some h2 ∧
        h2[t.globalState]? = some sampleGlobal ∧
        globalSnapshot { t with maps := h2 } = some m2 ∧ SameMapping m2 sampleGlobal :=
  GetGlobalState_copy sampleState sampleGlobal rfl

/-- C8: for every global state `g` and all strings `key` and `value`, after
`SetGlobalState(key, value)` the mapping `GetGlobalState()` returns maps `key` to `value`,
whether or not `key` was present, and has every other key exactly when `g` has it, with the
value `g` gives it. -/
theorem SetGlobalState_then_get (s : State) (g : MapObj) (key value : String)
    (hg : s.maps[s.globalState]? = some g) :
    ∃ s1 m, SetGlobalState s key value = some s1 ∧ globalSnapshot s1 = some m ∧
      m.lookup key = some value ∧
      (∀ k, k ≠ key → m.lookup k = g.lookup k) ∧ ∀ k, k ≠ key → (k ∈ m ↔ k ∈ g) := by
  have hg1 : (s.maps.set s.globalState (g.insert key value))[s.globalState]?
      = some (g.insert key value) := getElem?_set_self_some _ _ _ _ hg
  have hlook : ∀ k, k ≠ key → (insertAll ∅ (MapObj.pairs (g.insert key value))).lookup k = g.lookup k := by
    intro k hk
    rw [sameMapping_copy (g.insert key value) k, AList.lookup_insert_ne hk]
  refine ⟨_, _, SetGlobalState_some s key value g hg, globalSnapshot_some _ _ hg1, ?_, hlook, ?_⟩
  · rw [sameMapping_copy (g.insert key value) key, AList.lookup_insert]
  · intro k hk
    rw [← AList.lookup_isSome, ← AList.lookup_isSome, hlook k hk]

theorem SetGlobalState_then_get_witness :
    ∃ s1 m, SetGlobalState sampleState "k" "v" = some s1 ∧ globalSnapshot s1 = some m ∧
      m.lookup "k" = some "v" ∧
      (∀ k, k ≠ "k" → m.lookup k = sampleGlobal.lookup k) ∧
      ∀ k, k ≠ "k" → (k ∈ m ↔ k ∈ sampleGlobal) :=
  SetGlobalState_then_get sampleState sampleGlobal "k" "v" rfl

/-- C9: for every global state `g`, after `ClearGlobalState()` the store is empty and
`GetGlobalState()` returns a mapping with no keys. -/
theorem ClearGlobalState_then_get (s : State) (g : MapObj)
    (hg : s.maps[s.globalState]? = some g) :
    ∃ s1 m, ClearGlobalState s = some s1 ∧ s1.maps[s1.globalState]? = some ∅ ∧
      globalSnapshot s1 = some m ∧ m.keys = [] := by
  have hg1 : (s.maps.set s.globalState (∅ : MapObj))[s.globalState]? = some ∅ :=
    getElem?_set_self_some _ _ _ _ hg
  exact ⟨_, _, ClearGlobalState_some s g hg, hg1, globalSnapshot_some _ _ hg1, rfl⟩

theorem ClearGlobalState_then_get_witness :
    ∃ s1 m, ClearGlobalState sampleState = some s1 ∧ s1.maps[s1.globalState]? = some ∅ ∧
      globalSnapshot s1 = some m ∧ m.keys = [] :=
  ClearGlobalState_then_get sampleState sampleGlobal rfl

theorem capturedFrom_length (cs : List CallEnv) : ∀ a, (capturedFrom a cs).length = cs.length := by
  induction cs with
  | nil => intro a; rfl
  | cons c t ih => intro a; simp [capturedFrom, ih]

theorem capturedFrom_getElem? (cs : List CallEnv) :
    ∀ (a i : Nat) (c : CallEnv), cs[i]? = some c →
      (capturedFrom a cs)[i]? = some (capturedEntry c (a + i)) := by
  induction cs with
  | nil => intro a i c hc; simp at hc
  | cons c0 t ih =>
    intro a i c hc
    cases i with
    | zero =>
      simp only [List.getElem?_cons_zero, Option.some.injEq] at hc
      simp [capturedFrom, hc]
    | succ j =>
      simp only [List.getElem?_cons_succ] at hc
      have := ih (a + 1) j c hc
      simp only [capturedFrom, List.getElem?_cons_succ]
      rw [this]
      congr 2
      omega

/-- What a run of `Annotate` calls on one receiver computes: one new map object per call,
and the captured entries appended to the stack in call order. -/
theorem annotateAll_some (p : Nat) (g : MapObj) (calls : List (CallEnv × MapRef)) :
    ∀ (s : State) (obj : Error), s.maps[s.globalState]? = some g → s.errors[p]? = some obj →
      (∀ call ∈ calls, MapRef.ok s.maps call.2) →
      ∃ s2, annotateAll s (some p) calls = some (s2, some p) ∧
        s2.globalState = s.globalState ∧ s2.maps[s2.globalState]? = some g ∧
        s2.maps.length = s.maps.length + calls.length ∧
        (∀ (a : Nat) (o : MapObj), s.maps[a]? = some o → s2.maps[a]? = some o) ∧
        s2.errors = s.errors.set p
          { obj with Stack := obj.Stack ++ capturedFrom s.maps.length (calls.map Prod.fst) } := by
  induction calls with
  | nil =>
    intro s obj hg hp _
    refine ⟨s, rfl, rfl, hg, rfl, fun _ _ h => h, ?_⟩
    simp [capturedFrom, set_same _ _ _ hp]
  | cons call rest ih =>
    intro s obj hg hp hok
    obtain ⟨d, hd⟩ := readMap_of_ok s.maps call.2 (hok call (List.mem_cons_self _ _))
    have hstep := Annotate_some s call.1 p call.2 g d obj hg hd hp
    obtain ⟨s2, hrun, hgs, hg2, hlen, hkeep, herr⟩ :=
      ih { maps := s.maps ++ [insertAll (insertAll ∅ g.pairs) d.pairs],
           errors := s.errors.set p
             { obj with Stack := obj.Stack ++ [capturedEntry call.1 s.maps.length] },
           globalState := s.globalState }
        { obj with Stack := obj.Stack ++ [capturedEntry call.1 s.maps.length] }
        (getElem?_append_some _ _ _ _ hg) (getElem?_set_self_some _ _ _ _ hp)
        (fun c hc => ok_append _ _ _ (hok c (List.mem_cons_of_mem _ hc)))
    dsimp only at hgs hlen hkeep herr
    simp only [List.length_append, List.length_singleton] at hlen herr
    refine ⟨s2, ?_, hgs, hg2, ?_, ?_, ?_⟩
    · simp only [annotateAll, hstep, Option.bind_eq_bind, Option.some_bind]
      exact hrun
    · rw [hlen, List.length_cons]
      omega
    · intro a o ho
      exact hkeep a o (getElem?_append_some _ _ _ _ ho)
    · rw [herr, List.set_set]
      simp [capturedFrom, List.append_assoc]

/-- C2: for every `Error` and every `info` map, `Annotate(info)` makes the stack exactly the
old stack followed by one newly captured entry: the length grows by one and every earlier
entry keeps its index and contents (the entry itself and the map object its `Data` refers
to). Consequently, after `New` followed by `N` calls of `Annotate` the stack has length
`1 + N` and its `i`-th entry is the one captured by the `i`-th call, the entry of `New` at
index 0. -/
theorem Annotate_appends (s : State) (c : CallEnv) (p : Nat) (info : MapRef) (g d : MapObj)
    (obj : Error) (c0 : CallEnv) (e : GoError) (data : MapRef) (d0 : MapObj)
    (calls : List (CallEnv × MapRef))
    (hg : s.maps[s.globalState]? = some g) (hd : readMap s.maps info = some d)
    (hp : s.errors[p]? = some obj) (hd0 : readMap s.maps data = some d0)
    (hcalls : ∀ call ∈ calls, MapRef.ok s.maps call.2) :
    (∃ s1 obj1, Error.Annotate s c (some p) info = some (s1, some p) ∧
        deref s1 (some p) = some obj1 ∧
        obj1.Stack = obj.Stack ++ [capturedEntry c s.maps.length] ∧
        obj1.Stack.length = obj.Stack.length + 1 ∧
        (∀ (i : Nat) (entry : StackEntry), obj.Stack[i]? = some entry →
          obj1.Stack[i]? = some entry) ∧
        ∀ (a : Nat) (o : MapObj), s.maps[a]? = some o → s1.maps[a]? = some o) ∧
    (∃ s1 r s2 obj2, New s c0 (some e) data = some (s1, r) ∧
        annotateAll s1 r calls = some (s2, r) ∧ deref s2 r = some obj2 ∧
        obj2.Stack.length = 1 + calls.length ∧
        ∀ (i : Nat) (ci : CallEnv), (c0 :: calls.map Prod.fst)[i]? = some ci →
          obj2.Stack[i]? = some (capturedEntry ci (s.maps.length + i))) := by
  constructor
  · refine ⟨_, { obj with Stack := obj.Stack ++ [capturedEntry c s.maps.length] },
      Annotate_some s c p info g d obj hg hd hp, ?_, rfl, by simp, ?_, ?_⟩
    · simp only [deref, Option.some_bind]
      exact getElem?_set_self_some _ _ _ _ hp
    · intro i entry hi
      exact getElem?_append_some _ _ _ _ hi
    · intro a o ho
      exact getElem?_append_some _ _ _ _ ho
  · have hnew := New_some s c0 e data g d0 hg hd0
    have hobj : ∀ o0 : Error, (s.errors ++ [o0])[s.errors.length]? = some o0 := by
      intro o0
      simp
    obtain ⟨s2, hrun, _, _, _, _, herr⟩ :=
      annotateAll_some s.errors.length g calls
        { maps := s.maps ++ [insertAll (insertAll ∅ g.pairs) d0.pairs],
          errors := s.errors ++ [{ EmbeddedError := some e, ErrorMessage := e.Error,
                                   Stack := [capturedEntry c0 s.maps.length] }],
          globalState := s.globalState }
        _ (getElem?_append_some _ _ _ _ hg) (hobj _)
        (fun cl hc => ok_append _ _ _ (hcalls cl hc))
    dsimp only at herr
    simp only [List.length_append, List.length_singleton] at herr
    refine ⟨_, _, s2, ⟨some e, e.Error, capturedFrom s.maps.length (c0 :: calls.map Prod.fst)⟩,
      hnew, hrun, ?_, ?_, ?_⟩
    · simp only [deref, Option.some_bind, herr]
      exact getElem?_set_self_some _ _ _ _ (hobj _)
    · simp only [capturedFrom_length, List.length_cons, List.length_map]
      omega
    · intro i ci hci
      exact capturedFrom_getElem? _ _ _ _ hci

theorem Annotate_appends_witness :
    (∃ s1 obj1, Error.Annotate sampleState sampleEnv2 (some 0) (some 1) = some (s1, some 0) ∧
        deref s1 (some 0) = some obj1 ∧
        obj1.Stack = sampleError.Stack ++ [capturedEntry sampleEnv2 sampleState.maps.length] ∧
        obj1.Stack.length = sampleError.Stack.length + 1 ∧
        (∀ (i : Nat) (entry : StackEntry), sampleError.Stack[i]? = some entry →
          obj1.Stack[i]? = some entry) ∧
        ∀ (a : Nat) (o : MapObj), sampleState.maps[a]? = some o → s1.maps[a]? = some o) ∧
    (∃ s1 r s2 obj2, New sampleState sampleEnv (some ⟨"boom"⟩) none = some (s1, r) ∧
        annotateAll s1 r [(sampleEnv2, some 1), (sampleEnv, none)] = some (s2, r) ∧
        deref s2 r = some obj2 ∧
        obj2.Stack.length = 1 + [(sampleEnv2, some 1), (sampleEnv, none)].length ∧
        ∀ (i : Nat) (ci : CallEnv),
          (sampleEnv :: [(sampleEnv2, some 1), (sampleEnv, none)].map Prod.fst)[i]? = some ci →
          obj2.Stack[i]? = some (capturedEntry ci (sampleState.maps.length + i))) :=
  Annotate_appends sampleState sampleEnv2 0 (some 1) sampleGlobal sampleData sampleError
    sampleEnv ⟨"boom"⟩ none ∅ [(sampleEnv2, some 1), (sampleEnv, none)] rfl rfl rfl rfl
    (by decide)

/-- C5: snapshot isolation. Once `New` or `Annotate` has captured a stack entry, every later
sequence of `SetGlobalState`, `ClearGlobalState` and `Annotate` calls, on whatever `Error`,
runs and leaves the map object of that entry's `Data` unchanged. The entry of `New` also
stays the first entry of its `Error`; an entry appended by `Annotate` stays at its index as
long as the later `Annotate` calls are calls on the same receiver. Concretely,
`SetGlobalState(k, v1); New(e, nil); ClearGlobalState(); SetGlobalState(k, v2); Annotate(nil)`
yields a stack of two entries, the first with `Data` mapping `k` to `v1`, the second with
`Data` mapping `k` to `v2`. -/
theorem snapshot_isolation (s : State) (c c2 : CallEnv) (e : GoError) (g : MapObj)
    (k v1 v2 : String) (hg : s.maps[s.globalState]? = some g) :
    (∀ (data : MapRef) (d : MapObj), readMap s.maps data = some d →
      ∃ s1 r obj1 entry a m, New s c (some e) data = some (s1, r) ∧ deref s1 r = some obj1 ∧
        obj1.Stack = [entry] ∧ entry.Data = some a ∧ s1.maps[a]? = some m ∧
        ∀ ops : List Op, (∀ op ∈ ops, Op.ok s1 op) →
          ∃ t obj2, runOps s1 ops = some t ∧ deref t r = some obj2 ∧
            obj2.Stack[0]? = some entry ∧ t.maps[a]? = some m) ∧
    (∀ (data : MapRef) (d : MapObj) (p : Nat) (obj : Error),
      readMap s.maps data = some d → s.errors[p]? = some obj →
      ∃ s1 r obj1 entry a m, Error.Annotate s c (some p) data = some (s1, r) ∧
        deref s1 r = some obj1 ∧ obj1.Stack = obj.Stack ++ [entry] ∧ entry.Data = some a ∧
        s1.maps[a]? = some m ∧
        (∀ ops : List Op, (∀ op ∈ ops, Op.ok s1 op) →
          ∃ t, runOps s1 ops = some t ∧ t.maps[a]? = some m) ∧
        (∀ ops : List Op, (∀ op ∈ ops, Op.ok s1 op ∧ Op.onReceiver r op) →
          ∃ t obj2, runOps s1 ops = some t ∧ deref t r = some obj2 ∧
            obj2.Stack[obj.Stack.length]? = some entry ∧ t.maps[a]? = some m)) ∧
    (∃ s5 r obj5 e1 e2 m1 m2, snapshotScenario s c c2 e k v1 v2 = some (s5, r) ∧
        deref s5 r = some obj5 ∧ obj5.Stack = [e1, e2] ∧
        readMap s5.maps e1.Data = some m1 ∧ readMap s5.maps e2.Data = some m2 ∧
        m1.lookup k = some v1 ∧ m2.lookup k = some v2) := by
  have hlive : s.globalState < s.maps.length := lt_of_getElem?_some hg
  refine ⟨?_, ?_, snapshotScenario_some s c c2 e g k v1 v2 hg⟩
  · intro data d hd
    obtain ⟨s1, h1, hgs, hg1, _, herr, hnew, _⟩ := New_facts s c e data g d hg hd
    have hobj : s1.errors[s.errors.length]?
        = some ⟨some e, e.Error, [capturedEntry c s.maps.length]⟩ := by
      rw [herr]
      simp
    refine ⟨s1, _, ⟨some e, e.Error, [capturedEntry c s.maps.length]⟩,
      capturedEntry c s.maps.length, s.maps.length, _, h1, hobj, rfl, rfl, hnew, ?_⟩
    intro ops hok
    obtain ⟨t, hrun, hk⟩ := runOps_keeps ops s1 (lt_of_getElem?_some hg1) hok
    obtain ⟨obj2, ho2, _, _, hpre⟩ := hk.errors _ _ hobj
    exact ⟨t, obj2, hrun, ho2, getElem?_of_prefix hpre 0 _ rfl,
      hk.maps _ _ (by rw [hgs]; omega) hnew⟩
  · intro data d p obj hd hp
    obtain ⟨s1, h1, hgs, hg1, _, herr, hnew, _⟩ := Annotate_facts s c p data g d obj hg hd hp
    have hobj : s1.errors[p]? = some
        ⟨obj.EmbeddedError, obj.ErrorMessage, obj.Stack ++ [capturedEntry c s.maps.length]⟩ := by
      rw [herr]
      exact getElem?_set_self_some _ _ _ _ hp
    refine ⟨s1, _,
      ⟨obj.EmbeddedError, obj.ErrorMessage, obj.Stack ++ [capturedEntry c s.maps.length]⟩,
      capturedEntry c s.maps.length, s.maps.length, _, h1, hobj, rfl, rfl, hnew, ?_, ?_⟩
    · intro ops hok
      obtain ⟨t, hrun, hk⟩ := runOps_keeps ops s1 (lt_of_getElem?_some hg1) hok
      exact ⟨t, hrun, hk.maps _ _ (by rw [hgs]; omega) hnew⟩
    · intro ops hok
      obtain ⟨t, hrun, hk⟩ :=
        runOps_keeps ops s1 (lt_of_getElem?_some hg1) (fun op hop => (hok op hop).1)
      obtain ⟨obj2, ho2, _, _, hpre⟩ := hk.errors _ _ hobj
      exact ⟨t, obj2, hrun, ho2, getElem?_of_prefix hpre _ _ (by simp),
        hk.maps _ _ (by rw [hgs]; omega) hnew⟩

theorem snapshot_isolation_witness :
    (∃ s1 r obj1 entry a m,
        New sampleState sampleEnv (some ⟨"boom"⟩) (some 1) = some (s1, r) ∧
        deref s1 r = some obj1 ∧
        obj1.Stack = [entry] ∧ entry.Data = some a ∧ s1.maps[a]? = some m ∧
        ∀ ops : List Op, (∀ op ∈ ops, Op.ok s1 op) →
          ∃ t obj2, runOps s1 ops = some t ∧ deref t r = some obj2 ∧
            obj2.Stack[0]? = some entry ∧ t.maps[a]? = some m) ∧
    (∃ s1 r obj1 entry a m,
        Error.Annotate sampleState sampleEnv (some 0) (some 1) = some (s1, r) ∧
        deref s1 r = some obj1 ∧ obj1.Stack = sampleError.Stack ++ [entry] ∧
        entry.Data = some a ∧ s1.maps[a]? = some m ∧
        (∀ ops : List Op, (∀ op ∈ ops, Op.ok s1 op) →
          ∃ t, runOps s1 ops = some t ∧ t.maps[a]? = some m) ∧
        (∀ ops : List Op, (∀ op ∈ ops, Op.ok s1 op ∧ Op.onReceiver r op) →
          ∃ t obj2, runOps s1 ops = some t ∧ deref t r = some obj2 ∧
            obj2.Stack[sampleError.Stack.length]? = some entry ∧ t.maps[a]? = some m)) ∧
    (∃ s5 r obj5 e1 e2 m1 m2,
        snapshotScenario sampleState sampleEnv sampleEnv2 ⟨"boom"⟩ "k" "v1" "v2"
          = some (s5, r) ∧
        deref s5 r = some obj5 ∧ obj5.Stack = [e1, e2] ∧
        readMap s5.maps e1.Data = some m1 ∧ readMap s5.maps e2.Data = some m2 ∧
        m1.lookup "k" = some "v1" ∧ m2.lookup "k" = some "v2") :=
  have h := snapshot_isolation sampleState sampleEnv sampleEnv2 ⟨"boom"⟩ sampleGlobal
    "k" "v1" "v2" rfl
  ⟨h.1 (some 1) sampleData rfl, h.2.1 (some 1) sampleData 0 sampleError rfl rfl, h.2.2⟩

/-! ## Lines of the human-readable report -/

theorem oneLine_append (a b : String) (ha : oneLine a) (hb : oneLine b) : oneLine (a ++ b) := by
  simp only [oneLine, String.data_append, List.mem_append, not_or] at *
  exact ⟨ha, hb⟩

theorem digitChar_ne_newline (n : Nat) : Nat.digitChar n ≠ '\n' := by
  match n with
  | 0 | 1 | 2 | 3 | 4 | 5 | 6 | 7 | 8 | 9 | 10 | 11 | 12 | 13 | 14 | 15 => decide
  | m + 16 =>
    have h : Nat.digitChar (m + 16) = '*' := by
      simp only [Nat.digitChar]
      simp
    rw [h]
    decide

theorem toDigitsCore_no_newline (fuel : Nat) :
    ∀ (n : Nat) (ds : List Char), '\n' ∉ ds → '\n' ∉ Nat.toDigitsCore 10 fuel n ds := by
  induction fuel with
  | zero => intro n ds hds; simpa [Nat.toDigitsCore] using hds
  | succ f ih =>
    intro n ds hds
    have hcons : '\n' ∉ Nat.digitChar (n % 10) :: ds := by
      intro hmem
      rcases List.mem_cons.mp hmem with h | h
      · exact digitChar_ne_newline _ h.symm
      · exact hds h
    simp only [Nat.toDigitsCore]
    split
    · exact hcons
    · exact ih _ _ hcons

theorem oneLine_natRepr (n : Nat) : oneLine (toString n) := by
  show '\n' ∉ (Nat.repr n).data
  simp only [Nat.repr, Nat.toDigits, List.asString]
  exact toDigitsCore_no_newline _ _ _ (by simp)

theorem oneLine_intRepr (n : Int) : oneLine (toString n) := by
  cases n with
  | ofNat m => exact oneLine_natRepr m
  | negSucc m =>
    show oneLine ("-" ++ toString (Nat.succ m))
    exact oneLine_append _ _ (by simp [oneLine]) (oneLine_natRepr _)

theorem oneLine_intercalate_go (l : List String) :
    ∀ acc : String, oneLine acc → (∀ x ∈ l, oneLine x) →
      oneLine (String.intercalate.go acc " " l) := by
  induction l with
  | nil => intro acc hacc _; exact hacc
  | cons a t ih =>
    intro acc hacc hl
    simp only [String.intercalate.go]
    apply ih
    · exact oneLine_append _ _ (oneLine_append _ _ hacc (by simp [oneLine]))
        (hl a (List.mem_cons_self _ _))
    · intro x hx
      exact hl x (List.mem_cons_of_mem _ hx)

theorem oneLine_intercalate (l : List String) (hl : ∀ x ∈ l, oneLine x) :
    oneLine (" ".intercalate l) := by
  cases l with
  | nil => simp [String.intercalate, oneLine]
  | cons a t =>
    exact oneLine_intercalate_go t a (hl a (List.mem_cons_self _ _))
      (fun x hx => hl x (List.mem_cons_of_mem _ hx))

theorem oneLine_mapText (kvs : List (String × String))
    (h : ∀ kv ∈ kvs, oneLine kv.1 ∧ oneLine kv.2) : oneLine (mapText kvs) := by
  refine oneLine_append _ _ (oneLine_append _ _ (by simp [oneLine]) ?_) (by simp [oneLine])
  apply oneLine_intercalate
  intro x hx
  obtain ⟨kv, hkv, rfl⟩ := List.mem_map.mp hx
  exact oneLine_append _ _ (oneLine_append _ _ (h kv hkv).1 (by simp [oneLine])) (h kv hkv).2

theorem oneLine_entryLine (i : Nat) (entry : StackEntry) (o : MapObj)
    (he : Iodine.oneLine entry.Host) (hf : Iodine.oneLine entry.File) (ho : MapObj.oneLine o) :
    oneLine (entryLine i entry o.sortedPairs) := by
  have hc : oneLine ":" := by simp [oneLine]
  have hsp : oneLine " " := by simp [oneLine]
  have hd : oneLine "- " := by simp [oneLine]
  exact oneLine_append _ _ (oneLine_append _ _ (oneLine_append _ _ (oneLine_append _ _
    (oneLine_append _ _ (oneLine_append _ _ (oneLine_append _ _ (oneLine_append _ _
      (oneLine_append _ _ hd (oneLine_natRepr i)) hsp) he) hc) hf) hc)
      (oneLine_intRepr entry.Line)) hsp)
    (oneLine_mapText _ (fun kv hkv => ho kv ((List.perm_insertionSort keyLE o.pairs).mem_iff.mp hkv)))

/-- What `Fprintln` prints for a stack entry is its line followed by a newline. -/
theorem Sprintln_entry (i : Nat) (entry : StackEntry) (kvs : List (String × String)) :
    Sprintln ["-", toString i,
      entry.Host ++ ":" ++ entry.File ++ ":" ++ toString entry.Line, mapText kvs]
      = entryLine i entry kvs ++ "\n" := by
  apply String.ext
  simp [Sprintln, entryLine, String.intercalate, String.intercalate.go, List.append_assoc]

theorem textLines_line (l rest : List Char) (hl : '\n' ∉ l) :
    textLines (l ++ '\n' :: rest) = l :: textLines rest := by
  induction l with
  | nil => simp [textLines]
  | cons c t ih =>
    have hc : c ≠ '\n' := fun h => hl (by simp [h])
    have ht : '\n' ∉ t := fun h => hl (List.mem_cons_of_mem _ h)
    have ih2 := ih ht
    show textLines (c :: (t ++ '\n' :: rest)) = (c :: t) :: textLines rest
    simp only [textLines, if_neg hc, ih2]

theorem textLines_unlines (ls : List String) (h : ∀ l ∈ ls, oneLine l) :
    textLines (unlines ls).data = ls.map String.data := by
  induction ls with
  | nil => rfl
  | cons l t ih =>
    have hl : '\n' ∉ l.data := h l (List.mem_cons_self _ _)
    have : (unlines (l :: t)).data = l.data ++ '\n' :: (unlines t).data := by
      simp [unlines]
    rw [this, textLines_line _ _ hl, ih (fun x hx => h x (List.mem_cons_of_mem _ hx))]
    rfl

/-- The loop of `EmitHumanReadable` appends one line per stack entry, in stack order, each
with the index of its entry. -/
theorem emitEntries_some (h : List MapObj) (stack : List StackEntry) :
    ∀ (i : Nat) (buf : String), (∀ entry ∈ stack, StackEntry.oneLine h entry) →
      ∃ ls : List String, emitEntries h i stack buf = some (buf ++ unlines ls) ∧
        ls.length = stack.length ∧ (∀ l ∈ ls, oneLine l) ∧
        ∀ (j : Nat) (entry : StackEntry), stack[j]? = some entry →
          ∃ o, readMap h entry.Data = some o ∧
            ls[j]? = some (entryLine (i + j) entry o.sortedPairs) := by
  induction stack with
  | nil =>
    intro i buf _
    exact ⟨[], by simp [emitEntries, unlines], rfl, by simp, by simp⟩
  | cons entry rest ih =>
    intro i buf hst
    obtain ⟨hh, hf, o, ho, hoo⟩ := hst entry (List.mem_cons_self _ _)
    obtain ⟨ls, hrun, hlen, hone, hidx⟩ :=
      ih (i + 1) (buf ++ entryLine i entry o.sortedPairs ++ "\n")
        (fun x hx => hst x (List.mem_cons_of_mem _ hx))
    have hfmt : formatMap h entry.Data = some (mapText o.sortedPairs) := by
      simp [formatMap, ho]
    refine ⟨entryLine i entry o.sortedPairs :: ls, ?_, by simp [hlen], ?_, ?_⟩
    · simp only [emitEntries, hfmt, Option.bind_eq_bind, Option.some_bind, Sprintln_entry]
      rw [← String.append_assoc buf, hrun]
      simp [unlines, String.append_assoc]
    · intro l hl
      rcases List.mem_cons.mp hl with rfl | hl
      · exact oneLine_entryLine i entry o hh hf hoo
      · exact hone l hl
    · intro j en hj
      cases j with
      | zero =>
        simp only [List.getElem?_cons_zero, Option.some.injEq] at hj
        subst hj
        exact ⟨o, ho, by simp⟩
      | succ j =>
        simp only [List.getElem?_cons_succ] at hj
        obtain ⟨o2, ho2, hl2⟩ := hidx j en hj
        refine ⟨o2, ho2, ?_⟩
        simp only [List.getElem?_cons_succ, hl2]
        congr 2
        omega

/-- What `EmitHumanReadable` returns for an `Error` with a non-nil embedded error whose
parts are free of newlines: the message line followed by one line per stack entry. -/
theorem EmitHumanReadable_some (s : State) (err : Error) (e : GoError)
    (he : err.EmbeddedError = some e)
    (hstack : ∀ entry ∈ err.Stack, StackEntry.oneLine s.maps entry) :
    ∃ ls : List String, Error.EmitHumanReadable s err = some (unlines (e.Error :: ls)) ∧
      ls.length = err.Stack.length ∧ (∀ l ∈ ls, oneLine l) ∧
      ∀ (j : Nat) (entry : StackEntry), err.Stack[j]? = some entry →
        ∃ o, readMap s.maps entry.Data = some o ∧
          ls[j]? = some (entryLine j entry o.sortedPairs) := by
  obtain ⟨ls, hrun, hlen, hone, hidx⟩ :=
    emitEntries_some s.maps err.Stack 0 ("" ++ Sprintln [e.Error]) hstack
  refine ⟨ls, ?_, hlen, hone, ?_⟩
  · simp only [Error.EmitHumanReadable, Error.Error, he, Option.map_some', Option.bind_eq_bind,
      Option.some_bind, hrun]
    simp [Sprintln, String.intercalate, String.intercalate.go, unlines, String.append_assoc]
  · intro j entry hj
    obtain ⟨o, ho, hl⟩ := hidx j entry hj
    exact ⟨o, ho, by simpa using hl⟩

/-- C10, as the code has it: for every `Error` with a non-nil embedded error, where the
message and the host, file and data keys and values of every stack entry are free of
newlines, the output of `EmitHumanReadable` has exactly `len(stack) + 1` lines: the message
line, then for every index `i` of the stack one line, which starts with `- `, the decimal
index `i` and a space. -/
theorem EmitHumanReadable_lines (s : State) (err : Error) (e : GoError)
    (he : err.EmbeddedError = some e) (hmsg : oneLine e.Error)
    (hstack : ∀ entry ∈ err.Stack, StackEntry.oneLine s.maps entry) :
    ∃ out, Error.EmitHumanReadable s err = some out ∧
      (textLines out.data).length = err.Stack.length + 1 ∧
      (textLines out.data)[0]? = some e.Error.data ∧
      ∀ (i : Nat) (entry : StackEntry), err.Stack[i]? = some entry →
        ∃ rest : String,
          (textLines out.data)[i + 1]? = some ("- " ++ toString i ++ " " ++ rest).data := by
  obtain ⟨ls, hrun, hlen, hone, hidx⟩ := EmitHumanReadable_some s err e he hstack
  have hall : ∀ l ∈ e.Error :: ls, oneLine l := by
    intro l hl
    rcases List.mem_cons.mp hl with rfl | hl
    · exact hmsg
    · exact hone l hl
  have hlines := textLines_unlines (e.Error :: ls) hall
  refine ⟨_, hrun, ?_, ?_, ?_⟩
  · rw [hlines]
    simp [hlen]
  · rw [hlines]
    simp
  · intro i entry hi
    obtain ⟨o, _, hl⟩ := hidx i entry hi
    refine ⟨entry.Host ++ ":" ++ entry.File ++ ":" ++ toString entry.Line ++ " "
      ++ mapText o.sortedPairs, ?_⟩
    rw [hlines]
    simp only [List.map_cons, List.getElem?_cons_succ, List.getElem?_map, hl, Option.map_some']
    simp [entryLine, List.append_assoc]

theorem EmitHumanReadable_lines_witness :
    ∃ out, Error.EmitHumanReadable sampleState sampleError2 = some out ∧
      (textLines out.data).length = sampleError2.Stack.length + 1 ∧
      (textLines out.data)[0]? = some "boom".data ∧
      ∀ (i : Nat) (entry : StackEntry), sampleError2.Stack[i]? = some entry →
        ∃ rest : String,
          (textLines out.data)[i + 1]? = some ("- " ++ toString i ++ " " ++ rest).data :=
  EmitHumanReadable_lines sampleState sampleError2 ⟨"boom"⟩ rfl (by decide)
    (by
      intro entry hentry
      simp only [sampleError2, List.mem_cons, List.mem_singleton, List.not_mem_nil,
        or_false] at hentry
      rcases hentry with rfl | rfl
      · exact ⟨by decide, by decide, sampleData, rfl, by decide⟩
      · exact ⟨by decide, by decide, ∅, rfl, by decide⟩)

/-- C10 fails as stated: the `Error` that `New` makes for an error with the two-line message
`disk full\nretry later` has a stack of one entry, and its report has three lines, not
two. -/
theorem EmitHumanReadable_lines_counterexample :
    (twoLineError.map fun x => x.2.Stack.length + 1) = some 2 ∧
    (twoLineError.bind fun x => x.2.EmitHumanReadable x.1)
      = some "disk full\nretry later\n- 0 host:main.go:42 map[]\n" ∧
    (textLines "disk full\nretry later\n- 0 host:main.go:42 map[]\n".data).length = 3 := by
  decide

theorem strLt_asymm (x : List Char) : ∀ y, strLt x y = true → strLt y x = false := by
  induction x with
  | nil => intro y _; cases y <;> rfl
  | cons a as ih =>
    intro y h
    cases y with
    | nil => simp [strLt] at h
    | cons b bs =>
      simp only [strLt] at h ⊢
      split_ifs at h ⊢
      all_goals first | omega | rfl | exact ih bs h

theorem strLt_negTrans (x : List Char) :
    ∀ y z, strLt z x = true → strLt y x = true ∨ strLt z y = true := by
  induction x with
  | nil => intro y z h; cases z <;> simp [strLt] at h
  | cons a as ih =>
    intro y z h
    cases y with
    | nil =>
      cases z with
      | nil => exact Or.inl h
      | cons c cs => exact Or.inl rfl
    | cons b bs =>
      cases z with
      | nil => exact Or.inr rfl
      | cons c cs =>
        simp only [strLt] at h ⊢
        split_ifs at h ⊢
        all_goals first | omega | exact Or.inl rfl | exact Or.inr rfl | exact ih bs cs h

/-- The entries as `fmt` writes them are the entries of the map. -/
theorem sortedPairs_perm (o : MapObj) : (MapObj.sortedPairs o).Perm o.pairs :=
  List.perm_insertionSort keyLE o.pairs

/-- The entries as `fmt` writes them are in the order of their keys. -/
theorem sortedPairs_sorted (o : MapObj) : (MapObj.sortedPairs o).Sorted keyLE := by
  haveI : IsTotal (String × String) keyLE := ⟨fun a b => by
    unfold keyLE
    cases h : strLt b.1.data a.1.data with
    | false => exact Or.inl rfl
    | true => exact Or.inr (strLt_asymm _ _ h)⟩
  haveI : IsTrans (String × String) keyLE := ⟨fun a b c hab hbc => by
    unfold keyLE at *
    cases h : strLt c.1.data a.1.data with
    | false => rfl
    | true =>
      rcases strLt_negTrans a.1.data b.1.data c.1.data h with h1 | h1
      · rw [h1] at hab; cases hab
      · rw [h1] at hbc; cases hbc⟩
  exact List.sorted_insertionSort keyLE o.pairs

/-- A report with a map stored as `b`, `a`: the keys are printed sorted. -/
theorem sortedReport_eq : sortedReport = some "boom\n- 0 host:main.go:42 map[a:1 b:2]\n" := by
  decide

/-- The loop of `EmitHumanReadable`, whatever the strings hold: one line per stack entry, in
stack order, in the format of `entryLine`. -/
theorem emitEntries_format (h : List MapObj) (stack : List StackEntry) :
    ∀ (i : Nat) (buf : String), (∀ entry ∈ stack, ∃ o, readMap h entry.Data = some o) →
      ∃ ls : List String, emitEntries h i stack buf = some (buf ++ unlines ls) ∧
        ls.length = stack.length ∧
        ∀ (j : Nat) (entry : StackEntry), stack[j]? = some entry →
          ∃ o, readMap h entry.Data = some o ∧
            ls[j]? = some (entryLine (i + j) entry o.sortedPairs) := by
  induction stack with
  | nil =>
    intro i buf _
    exact ⟨[], by simp [emitEntries, unlines], rfl, by simp⟩
  | cons entry rest ih =>
    intro i buf hst
    obtain ⟨o, ho⟩ := hst entry (List.mem_cons_self _ _)
    obtain ⟨ls, hrun, hlen, hidx⟩ :=
      ih (i + 1) (buf ++ entryLine i entry o.sortedPairs ++ "\n")
        (fun x hx => hst x (List.mem_cons_of_mem _ hx))
    have hfmt : formatMap h entry.Data = some (mapText o.sortedPairs) := by
      simp [formatMap, ho]
    refine ⟨entryLine i entry o.sortedPairs :: ls, ?_, by simp [hlen], ?_⟩
    · simp only [emitEntries, hfmt, Option.bind_eq_bind, Option.some_bind, Sprintln_entry]
      rw [← String.append_assoc buf, hrun]
      simp [unlines, String.append_assoc]
    · intro j en hj
      cases j with
      | zero =>
        simp only [List.getElem?_cons_zero, Option.some.injEq] at hj
        subst hj
        exact ⟨o, ho, by simp⟩
      | succ j =>
        simp only [List.getElem?_cons_succ] at hj
        obtain ⟨o2, ho2, hl2⟩ := hidx j en hj
        refine ⟨o2, ho2, ?_⟩
        simp only [List.getElem?_cons_succ, hl2]
        congr 2
        omega

/-- C11: for every `Error` with message `m` and stack `s`, `EmitHumanReadable()` equals `m`
followed by a newline, followed, for `i = 0 .. len(s)-1` in stack order, by the line
`"- " ++ decimal(i) ++ " " ++ s[i].Host ++ ":" ++ s[i].File ++ ":" ++ decimal(s[i].Line)
++ " " ++ text(s[i].Data)`, each ended by a newline; `text` of a map is `map[k1:v1 k2:v2]`
over the entries of the map in the order of their keys. -/
theorem EmitHumanReadable_format (s : State) (err : Error) (m : String)
    (hm : err.Error = some m)
    (hdata : ∀ entry ∈ err.Stack, ∃ o, readMap s.maps entry.Data = some o) :
    ∃ ls : List String, Error.EmitHumanReadable s err = some (m ++ "\n" ++ unlines ls) ∧
      ls.length = err.Stack.length ∧
      ∀ (i : Nat) (entry : StackEntry), err.Stack[i]? = some entry →
        ∃ (o : MapObj) (kvs : List (String × String)),
          readMap s.maps entry.Data = some o ∧ kvs.Perm o.pairs ∧ kvs.Sorted keyLE ∧
          ls[i]? = some ("- " ++ toString i ++ " " ++ entry.Host ++ ":" ++ entry.File ++ ":"
            ++ toString entry.Line ++ " " ++ mapText kvs) := by
  obtain ⟨ls, hrun, hlen, hidx⟩ :=
    emitEntries_format s.maps err.Stack 0 ("" ++ Sprintln [m]) hdata
  refine ⟨ls, ?_, hlen, ?_⟩
  · simp only [Error.EmitHumanReadable, hm, Option.bind_eq_bind, Option.some_bind, hrun]
    simp [Sprintln, String.intercalate, String.intercalate.go]
  · intro j entry hj
    obtain ⟨o, ho, hl⟩ := hidx j entry hj
    exact ⟨o, o.sortedPairs, ho, sortedPairs_perm o, sortedPairs_sorted o,
      by simpa [entryLine] using hl⟩

theorem EmitHumanReadable_format_witness :
    ∃ ls : List String,
      Error.EmitHumanReadable unsortedState unsortedError
        = some ("boom" ++ "\n" ++ unlines ls) ∧
      ls.length = unsortedError.Stack.length ∧
      ∀ (i : Nat) (entry : StackEntry), unsortedError.Stack[i]? = some entry →
        ∃ (o : MapObj) (kvs : List (String × String)),
          readMap unsortedState.maps entry.Data = some o ∧ kvs.Perm o.pairs ∧
          kvs.Sorted keyLE ∧
          ls[i]? = some ("- " ++ toString i ++ " " ++ entry.Host ++ ":" ++ entry.File ++ ":"
            ++ toString entry.Line ++ " " ++ mapText kvs) :=
  EmitHumanReadable_format unsortedState unsortedError "boom" rfl
    (by
      intro entry hentry
      simp only [unsortedError, List.mem_singleton] at hentry
      subst hentry
      exact ⟨unsortedMap, rfl⟩)

/-- C14: message consistency. For every non-nil error `e`, `New(e, d)` sets `ErrorMessage`
to `e.Error()`; every `Annotate` leaves `ErrorMessage` and `EmbeddedError` of its receiver
unchanged; so after `New` followed by any number of `Annotate` calls the cached
`ErrorMessage` equals what `Error()` returns. -/
theorem message_consistency (s : State) (c : CallEnv) (p : Nat) (info : MapRef)
    (g d : MapObj) (obj : Error) (c0 : CallEnv) (e : GoError) (data : MapRef) (d0 : MapObj)
    (calls : List (CallEnv × MapRef))
    (hg : s.maps[s.globalState]? = some g) (hd : readMap s.maps info = some d)
    (hp : s.errors[p]? = some obj) (hd0 : readMap s.maps data = some d0)
    (hcalls : ∀ call ∈ calls, MapRef.ok s.maps call.2) :
    (∃ s1 r obj1, Error.Annotate s c (some p) info = some (s1, r) ∧ deref s1 r = some obj1 ∧
        obj1.ErrorMessage = obj.ErrorMessage ∧ obj1.EmbeddedError = obj.EmbeddedError) ∧
    (∃ s1 r obj1 s2 obj2, New s c0 (some e) data = some (s1, r) ∧ deref s1 r = some obj1 ∧
        obj1.ErrorMessage = e.Error ∧ obj1.EmbeddedError = some e ∧
        annotateAll s1 r calls = some (s2, r) ∧ deref s2 r = some obj2 ∧
        obj2.ErrorMessage = obj1.ErrorMessage ∧ obj2.EmbeddedError = obj1.EmbeddedError ∧
        obj2.Error = some obj2.ErrorMessage) := by
  constructor
  · obtain ⟨s1, h1, _, _, _, herr, _, _⟩ := Annotate_facts s c p info g d obj hg hd hp
    refine ⟨s1, _, ⟨obj.EmbeddedError, obj.ErrorMessage,
      obj.Stack ++ [capturedEntry c s.maps.length]⟩, h1, ?_, rfl, rfl⟩
    simp only [deref, Option.some_bind, herr]
    exact getElem?_set_self_some _ _ _ _ hp
  · obtain ⟨s1, h1, _, hg1, hlen1, herr1, _, hkeep1⟩ := New_facts s c0 e data g d0 hg hd0
    have hobj1 : s1.errors[s.errors.length]?
        = some ⟨some e, e.Error, [capturedEntry c0 s.maps.length]⟩ := by
      rw [herr1]
      simp
    have hok1 : ∀ call ∈ calls, MapRef.ok s1.maps call.2 := by
      intro call hc
      have h0 := hcalls call hc
      cases hinfo : call.2 with
      | none => trivial
      | some a =>
        rw [hinfo] at h0
        show a < s1.maps.length
        have : a < s.maps.length := h0
        omega
    obtain ⟨s2, hrun, _, _, _, _, herr2⟩ :=
      annotateAll_some s.errors.length g calls s1 _ hg1 hobj1 hok1
    refine ⟨s1, _, _, s2, ⟨some e, e.Error, [capturedEntry c0 s.maps.length] ++
      capturedFrom s1.maps.length (calls.map Prod.fst)⟩, h1, hobj1, rfl, rfl, hrun, ?_,
      rfl, rfl, rfl⟩
    simp only [deref, Option.some_bind, herr2]
    exact getElem?_set_self_some _ _ _ _ hobj1

theorem message_consistency_witness :
    (∃ s1 r obj1, Error.Annotate sampleState sampleEnv2 (some 0) (some 1) = some (s1, r) ∧
        deref s1 r = some obj1 ∧
        obj1.ErrorMessage = sampleError.ErrorMessage ∧
        obj1.EmbeddedError = sampleError.EmbeddedError) ∧
    (∃ s1 r obj1 s2 obj2, New sampleState sampleEnv (some ⟨"boom"⟩) none = some (s1, r) ∧
        deref s1 r = some obj1 ∧
        obj1.ErrorMessage = "boom" ∧ obj1.EmbeddedError = some ⟨"boom"⟩ ∧
        annotateAll s1 r [(sampleEnv2, some 1), (sampleEnv, none)] = some (s2, r) ∧
        deref s2 r = some obj2 ∧
        obj2.ErrorMessage = obj1.ErrorMessage ∧ obj2.EmbeddedError = obj1.EmbeddedError ∧
        obj2.Error = some obj2.ErrorMessage) :=
  message_consistency sampleState sampleEnv2 0 (some 1) sampleGlobal sampleData sampleError
    sampleEnv ⟨"boom"⟩ none ∅ [(sampleEnv2, some 1), (sampleEnv, none)] rfl rfl rfl rfl
    (by decide)

/-- A call of `Annotate` that returns, returns its receiver. -/
theorem Annotate_ref (s : State) (c : CallEnv) (err : ErrRef) (info : MapRef) (s1 : State)
    (r : ErrRef) (h : Error.Annotate s c err info = some (s1, r)) : r = err := by
  simp only [Error.Annotate, Option.bind_eq_bind, Option.pure_def, Option.bind_eq_some,
    Option.some.injEq, Prod.mk.injEq] at h
  obtain ⟨_, _, _, _, _, _, _, _, _, hr⟩ := h
  exact hr.symm

/-- C15: `Annotate` returns the instance it was called on: the call returns the pointer it
received, which points to the receiver in its state after the call (same embedded error,
same message, the extended stack); so the chained call `err.Annotate(a).Annotate(b)` does
exactly what `err.Annotate(a)` followed by `err.Annotate(b)` does. -/
theorem Annotate_returns_receiver (s : State) (c c2 : CallEnv) (p : Nat) (info : MapRef)
    (g d : MapObj) (obj : Error) (hg : s.maps[s.globalState]? = some g)
    (hd : readMap s.maps info = some d) (hp : s.errors[p]? = some obj) :
    (∃ s1 obj1, Error.Annotate s c (some p) info = some (s1, some p) ∧
        deref s1 (some p) = some obj1 ∧ obj1.EmbeddedError = obj.EmbeddedError ∧
        obj1.ErrorMessage = obj.ErrorMessage ∧
        obj1.Stack = obj.Stack ++ [capturedEntry c s.maps.length]) ∧
    (∀ (err : ErrRef) (a b : MapRef),
        annotateChained s c c2 err a b = annotateTwice s c c2 err a b) ∧
    (∃ s2, annotateChained s c c2 (some p) info info = some (s2, some p)) := by
  refine ⟨?_, ?_, ?_⟩
  · obtain ⟨s1, h1, _, _, _, herr, _, _⟩ := Annotate_facts s c p info g d obj hg hd hp
    refine ⟨s1, ⟨obj.EmbeddedError, obj.ErrorMessage,
      obj.Stack ++ [capturedEntry c s.maps.length]⟩, h1, ?_, rfl, rfl, rfl⟩
    simp only [deref, Option.some_bind, herr]
    exact getElem?_set_self_some _ _ _ _ hp
  · intro err a b
    simp only [annotateChained, annotateTwice]
    cases h : Error.Annotate s c err a with
    | none => rfl
    | some res =>
      obtain ⟨s1, r⟩ := res
      have hr : r = err := Annotate_ref s c err a s1 r h
      subst hr
      rfl
  · obtain ⟨s1, h1, _, hg1, hlen, herr, _, hkeep⟩ := Annotate_facts s c p info g d obj hg hd hp
    have hd1 : readMap s1.maps info = some d := by
      cases info with
      | none => exact hd
      | some a => exact hkeep a d hd
    have hp1 : s1.errors[p]? = some ⟨obj.EmbeddedError, obj.ErrorMessage,
        obj.Stack ++ [capturedEntry c s.maps.length]⟩ := by
      rw [herr]
      exact getElem?_set_self_some _ _ _ _ hp
    obtain ⟨s2, h2, _⟩ := Annotate_facts s1 c2 p info g d _ hg1 hd1 hp1
    refine ⟨s2, ?_⟩
    simp only [annotateChained, h1, Option.bind_eq_bind, Option.some_bind, h2]

theorem Annotate_returns_receiver_witness :
    (∃ s1 obj1, Error.Annotate sampleState sampleEnv (some 0) (some 1) = some (s1, some 0) ∧
        deref s1 (some 0) = some obj1 ∧ obj1.EmbeddedError = sampleError.EmbeddedError ∧
        obj1.ErrorMessage = sampleError.ErrorMessage ∧
        obj1.Stack = sampleError.Stack ++ [capturedEntry sampleEnv sampleState.maps.length]) ∧
    (∀ (err : ErrRef) (a b : MapRef),
        annotateChained sampleState sampleEnv sampleEnv2 err a b
          = annotateTwice sampleState sampleEnv sampleEnv2 err a b) ∧
    (∃ s2, annotateChained sampleState sampleEnv sampleEnv2 (some 0) (some 1) (some 1)
        = some (s2, some 0)) :=
  Annotate_returns_receiver sampleState sampleEnv sampleEnv2 0 (some 1) sampleGlobal
    sampleData sampleError rfl rfl rfl

/-- C18: `New` and `Annotate` never mutate the caller-supplied map: for every map object `d`
passed as `data` to `New` or as `info` to `Annotate`, and every global state `g`, also one
with keys that `d` lacks, the object holds the same entries after the call as before. -/
theorem caller_map_untouched (s : State) (c : CallEnv) (e : GoError) (a p : Nat)
    (obj : Error) (g d : MapObj) (hg : s.maps[s.globalState]? = some g)
    (hd : s.maps[a]? = some d) (hp : s.errors[p]? = some obj) :
    (∃ s1 r, New s c (some e) (some a) = some (s1, r) ∧ s1.maps[a]? = some d) ∧
    (∃ s1 r, Error.Annotate s c (some p) (some a) = some (s1, r) ∧ s1.maps[a]? = some d) := by
  constructor
  · obtain ⟨s1, h1, _, _, _, _, _, hkeep⟩ := New_facts s c e (some a) g d hg hd
    exact ⟨s1, _, h1, hkeep a d hd⟩
  · obtain ⟨s1, h1, _, _, _, _, _, hkeep⟩ := Annotate_facts s c p (some a) g d obj hg hd hp
    exact ⟨s1, _, h1, hkeep a d hd⟩

theorem caller_map_untouched_witness :
    (∃ s1 r, New sampleState sampleEnv (some ⟨"boom"⟩) (some 2) = some (s1, r) ∧
        s1.maps[2]? = some ∅) ∧
    (∃ s1 r, Error.Annotate sampleState sampleEnv (some 0) (some 2) = some (s1, r) ∧
        s1.maps[2]? = some ∅) :=
  caller_map_untouched sampleState sampleEnv ⟨"boom"⟩ 2 0 sampleError sampleGlobal ∅
    rfl rfl rfl

/-! ## Reading back the text of a document -/

theorem hexVal_hexDigit (k : Nat) (hk : k < 16) : hexVal (hexDigit k) = some k := by
  interval_cases k <;> rfl

theorem parseStr_quote (rest : List Char) : parseStr ('"' :: rest) = some ([], rest) := by
  rw [parseStr.eq_def]
  simp

theorem parseStr_plain (c : Char) (tail : List Char) (h1 : c ≠ '"') (h2 : c ≠ '\\') :
    parseStr (c :: tail)
      = match parseStr tail with
        | some (s, r) => some (c :: s, r)
        | none => none := by
  rw [parseStr.eq_def]
  simp [h1, h2]

theorem parseStr_short (e ch : Char) (tail : List Char) (he : e ≠ 'u')
    (hu : unescape e = some ch) :
    parseStr ('\\' :: e :: tail)
      = match parseStr tail with
        | some (s, r) => some (ch :: s, r)
        | none => none := by
  rw [parseStr.eq_def]
  simp only [hu, he, if_false, if_true]
  cases parseStr tail <;> simp

theorem parseStr_hex (h1 h2 h3 h4 : Char) (a b c d : Nat) (tail : List Char)
    (ha : hexVal h1 = some a) (hb : hexVal h2 = some b) (hc : hexVal h3 = some c)
    (hd : hexVal h4 = some d) :
    parseStr ('\\' :: 'u' :: h1 :: h2 :: h3 :: h4 :: tail)
      = match parseStr tail with
        | some (s, r) => some (utf8Encode (((a * 16 + b) * 16 + c) * 16 + d) ++ s, r)
        | none => none := by
  rw [parseStr.eq_def]
  simp only [ha, hb, hc, hd, if_false, if_true]
  cases parseStr tail <;> simp

/-- Escaping one byte below 0x80 and reading the escape back gives the byte. -/
theorem parseStr_escapeChar (c : Char) (tail : List Char) :
    parseStr (escapeChar c ++ tail)
      = match parseStr tail with
        | some (s, r) => some (c :: s, r)
        | none => none := by
  unfold escapeChar
  split_ifs with h1 h2 h3 h4 h5 h6
  · subst h1; exact parseStr_short '"' '"' tail (by decide) rfl
  · subst h2; exact parseStr_short '\\' '\\' tail (by decide) rfl
  · subst h3; exact parseStr_short 'n' '\n' tail (by decide) rfl
  · subst h4; exact parseStr_short 'r' '\r' tail (by decide) rfl
  · subst h5; exact parseStr_short 't' '\t' tail (by decide) rfl
  · have hlt : c.toNat < 128 := by
      rcases h6 with h | h | h | h
      · omega
      · subst h; decide
      · subst h; decide
      · subst h; decide
    have hhi := hexVal_hexDigit (c.toNat / 16) (by omega)
    have hlo := hexVal_hexDigit (c.toNat % 16) (by omega)
    have h0 : hexVal '0' = some 0 := rfl
    have hval : ((0 * 16 + 0) * 16 + c.toNat / 16) * 16 + c.toNat % 16 = c.toNat := by omega
    have := parseStr_hex '0' '0' _ _ 0 0 _ _ tail h0 h0 hhi hlo
    rw [hval] at this
    have henc : utf8Encode c.toNat = [c] := by
      simp only [utf8Encode, if_pos hlt, Char.ofNat_toNat]
    rw [henc] at this
    exact this
  · exact parseStr_plain c tail h1 h2

/-- Bytes other than the quote and the backslash are read as they stand. -/
theorem parseStr_copy (bs : List Char) (tail : List Char)
    (hbs : ∀ c ∈ bs, c ≠ '"' ∧ c ≠ '\\') :
    parseStr (bs ++ tail)
      = match parseStr tail with
        | some (s, r) => some (bs ++ s, r)
        | none => none := by
  induction bs with
  | nil => rw [List.nil_append]; cases parseStr tail <;> rfl
  | cons c t ih =>
    have hc := hbs c (List.mem_cons_self _ _)
    rw [List.cons_append, parseStr_plain c _ hc.1 hc.2,
      ih (fun x hx => hbs x (List.mem_cons_of_mem _ hx))]
    cases parseStr tail <;> rfl

theorem high_ne (c : Char) (hc : 0x80 ≤ c.toNat) : c ≠ '"' ∧ c ≠ '\\' := by
  constructor <;> (rintro rfl; revert hc; decide)

theorem between_lo (lo hi : Nat) (c : Char) (h : between lo hi c = true) : lo ≤ c.toNat := by
  simp only [between, Bool.and_eq_true, decide_eq_true_eq] at h
  exact h.1

theorem second3_high (b0 b1 : Char) (h : second3 b0 b1 = true) : 0x80 ≤ b1.toNat := by
  unfold second3 at h
  split_ifs at h
  · have := between_lo _ _ _ h; omega
  · exact between_lo _ _ _ h
  · exact between_lo _ _ _ h

theorem second4_high (b0 b1 : Char) (h : second4 b0 b1 = true) : 0x80 ≤ b1.toNat := by
  unfold second4 at h
  split_ifs at h
  · have := between_lo _ _ _ h; omega
  · exact between_lo _ _ _ h
  · exact between_lo _ _ _ h

/-- The bytes of a well-formed sequence of two to four bytes are all 0x80 or above. -/
theorem runeLen_high (cs : List Char) (hk : runeLen cs ≠ 0) :
    ∀ c ∈ cs.take (runeLen cs), 0x80 ≤ c.toNat := by
  unfold runeLen at hk ⊢
  split_ifs at hk ⊢ with h2 h3 h4
  · match cs, h2 with
    | b0 :: b1 :: r, h2 =>
      simp only [valid2, Bool.and_eq_true] at h2
      have h0 := between_lo _ _ _ h2.1
      have h1 := between_lo _ _ _ h2.2
      intro c hc
      simp only [List.take_succ_cons, List.take_zero, List.mem_cons, List.mem_singleton,
        List.not_mem_nil, or_false] at hc
      rcases hc with rfl | rfl <;> omega
  · match cs, h3 with
    | b0 :: b1 :: b2 :: r, h3 =>
      simp only [valid3, Bool.and_eq_true] at h3
      have h0 := between_lo _ _ _ h3.1.1
      have h1 := second3_high _ _ h3.1.2
      have h2' := between_lo _ _ _ h3.2
      intro c hc
      simp only [List.take_succ_cons, List.take_zero, List.mem_cons, List.mem_singleton,
        List.not_mem_nil, or_false] at hc
      rcases hc with rfl | rfl | rfl <;> omega
  · match cs, h4 with
    | b0 :: b1 :: b2 :: b3 :: r, h4 =>
      simp only [valid4, Bool.and_eq_true] at h4
      have h0 := between_lo _ _ _ h4.1.1.1
      have h1 := second4_high _ _ h4.1.1.2
      have h2' := between_lo _ _ _ h4.1.2
      have h3' := between_lo _ _ _ h4.2
      intro c hc
      simp only [List.take_succ_cons, List.take_zero, List.mem_cons, List.mem_singleton,
        List.not_mem_nil, or_false] at hc
      rcases hc with rfl | rfl | rfl | rfl <;> omega
  · exact absurd rfl hk

theorem stepLen_pos (cs : List Char) : 1 ≤ stepLen cs := by
  cases cs with
  | nil => exact Nat.le_refl 1
  | cons b rest =>
    simp only [stepLen]
    split_ifs <;> omega

theorem lineSep_bytes (cs : List Char) (h : Char) (hl : lineSep cs = some h) :
    ∃ r, (h = '8' ∧ cs = Char.ofNat 0xE2 :: Char.ofNat 0x80 :: Char.ofNat 0xA8 :: r) ∨
      (h = '9' ∧ cs = Char.ofNat 0xE2 :: Char.ofNat 0x80 :: Char.ofNat 0xA9 :: r) := by
  match cs, hl with
  | b0 :: b1 :: b2 :: r, hl =>
    simp only [lineSep] at hl
    split_ifs at hl with h1 h2 h3
    · obtain ⟨rfl, rfl⟩ := h1
      subst h2
      exact ⟨r, Or.inl ⟨(Option.some.inj hl).symm, rfl⟩⟩
    · obtain ⟨rfl, rfl⟩ := h1
      subst h3
      exact ⟨r, Or.inr ⟨(Option.some.inj hl).symm, rfl⟩⟩

/-- Reading back what the encoder writes for one step of a string gives the bytes the
step stands for. -/
theorem parseStr_step (b : Char) (rest tail : List Char) :
    parseStr (stepText (b :: rest) ++ tail)
      = match parseStr tail with
        | some (s, r) => some (stepBytes (b :: rest) ++ s, r)
        | none => none := by
  simp only [stepText, stepBytes]
  split_ifs with h1 h2
  · exact parseStr_escapeChar b tail
  · exact parseStr_hex 'f' 'f' 'f' 'd' 15 15 15 13 tail rfl rfl rfl rfl
  · cases hl : lineSep (b :: rest) with
    | none =>
      exact parseStr_copy _ tail
        (fun c hc => high_ne c (runeLen_high (b :: rest) h2 c hc))
    | some h =>
      obtain ⟨r, ⟨rfl, hcs⟩ | ⟨rfl, hcs⟩⟩ := lineSep_bytes _ _ hl
      · rw [hcs]
        exact parseStr_hex '2' '0' '2' '8' 2 0 2 8 tail rfl rfl rfl rfl
      · rw [hcs]
        exact parseStr_hex '2' '0' '2' '9' 2 0 2 9 tail rfl rfl rfl rfl

/-- Reading back an encoded string body up to its closing quote gives the string with
each invalid byte replaced. -/
theorem parseStr_encode (f : Nat) : ∀ (cs rest : List Char), cs.length ≤ f →
    parseStr (encodeFuel f cs ++ '"' :: rest) = some (sanitizeFuel f cs, rest) := by
  induction f with
  | zero =>
    intro cs rest _
    exact parseStr_quote rest
  | succ f ih =>
    intro cs rest hlen
    cases cs with
    | nil => exact parseStr_quote rest
    | cons b r =>
      have hpos := stepLen_pos (b :: r)
      have hdrop : ((b :: r).drop (stepLen (b :: r))).length ≤ f := by
        rw [List.length_drop]
        simp only [List.length_cons] at hlen ⊢
        omega
      simp only [encodeFuel, sanitizeFuel, List.append_assoc]
      rw [parseStr_step, ih _ rest hdrop]

theorem parseStr_render (s : String) (rest : List Char) :
    parseStr (encodeString s.data ++ '"' :: rest) = some ((sanitizeString s).data, rest) :=
  parseStr_encode _ s.data rest (Nat.le_refl _)

/-- A string that is valid UTF-8 is left as it is. -/
theorem sanitizeFuel_valid (f : Nat) : ∀ cs : List Char, cs.length ≤ f →
    validFuel f cs = true → sanitizeFuel f cs = cs := by
  induction f with
  | zero =>
    intro cs hlen _
    cases cs with
    | nil => rfl
    | cons b r => simp at hlen
  | succ f ih =>
    intro cs hlen hv
    cases cs with
    | nil => rfl
    | cons b r =>
      have hpos := stepLen_pos (b :: r)
      have hdrop : ((b :: r).drop (stepLen (b :: r))).length ≤ f := by
        rw [List.length_drop]
        simp only [List.length_cons] at hlen ⊢
        omega
      simp only [validFuel, Bool.and_eq_true, Bool.or_eq_true, decide_eq_true_eq] at hv
      simp only [sanitizeFuel]
      rw [ih _ hdrop hv.2]
      simp only [stepBytes, stepLen]
      split_ifs with h1 h2
      · rfl
      · rcases hv.1 with h | h
        · exact absurd h h1
        · exact absurd h2 h
      · exact List.take_append_drop _ _

theorem sanitizeString_valid (t : String) (h : ValidUTF8 t) : sanitizeString t = t := by
  unfold sanitizeString
  have hlen : t.data.length ≤ t.length := Nat.le_refl _
  rw [sanitizeFuel_valid _ _ hlen h]

theorem digitChar_isDigit (k : Nat) (hk : k < 10) :
    (Nat.digitChar k).isDigit = true ∧ (Nat.digitChar k).toNat - 48 = k := by
  interval_cases k <;> exact ⟨rfl, rfl⟩

/-- The decimal digits of `n`, as `Nat.repr` produces them, are digits whose value is `n`. -/
theorem toDigitsCore_value (fuel : Nat) :
    ∀ (n : Nat) (ds : List Char), n < fuel →
      ∃ pre : List Char, Nat.toDigitsCore 10 fuel n ds = pre ++ ds ∧ pre ≠ [] ∧
        (∀ c ∈ pre, c.isDigit = true) ∧
        ∀ acc, pre.foldl (fun a c => 10 * a + (c.toNat - 48)) acc
          = acc * 10 ^ pre.length + n := by
  induction fuel with
  | zero => intro n ds h; omega
  | succ f ih =>
    intro n ds hn
    obtain ⟨hdig, hval⟩ := digitChar_isDigit (n % 10) (Nat.mod_lt _ (by omega))
    simp only [Nat.toDigitsCore]
    split
    · rename_i hz
      refine ⟨[Nat.digitChar (n % 10)], rfl, by simp, by simpa using hdig, ?_⟩
      intro acc
      simp only [List.foldl_cons, List.foldl_nil, hval, List.length_singleton, pow_one]
      have : n / 10 = 0 := hz
      omega
    · rename_i hz
      have hlt : n / 10 < f := by
        have : n / 10 ≠ 0 := hz
        omega
      obtain ⟨pre, hpre, hne, hall, hfold⟩ := ih (n / 10) (Nat.digitChar (n % 10) :: ds) hlt
      refine ⟨pre ++ [Nat.digitChar (n % 10)], by simp [hpre], by simp, ?_, ?_⟩
      · intro c hc
        rcases List.mem_append.mp hc with h | h
        · exact hall c h
        · simp only [List.mem_singleton] at h
          rw [h]
          exact hdig
      · intro acc
        simp only [List.foldl_append, List.foldl_cons, List.foldl_nil, hfold, hval,
          List.length_append, List.length_singleton, pow_succ]
        have := Nat.div_add_mod n 10
        nlinarith [this]

theorem repr_digits (n : Nat) :
    (Nat.repr n).data ≠ [] ∧ (∀ c ∈ (Nat.repr n).data, c.isDigit = true) ∧
      digitsValue (Nat.repr n).data = n := by
  obtain ⟨pre, hpre, hne, hall, hfold⟩ := toDigitsCore_value (n + 1) n [] (by omega)
  have hdata : (Nat.repr n).data = pre := by
    simp only [Nat.repr, Nat.toDigits, List.asString, hpre, List.append_nil]
  rw [hdata]
  refine ⟨hne, hall, ?_⟩
  simp [digitsValue, hfold 0]

theorem parseNat_repr (n : Nat) (rest : List Char) (hr : NoDigit rest) :
    parseNat ((Nat.repr n).data ++ rest) = some (n, rest) := by
  obtain ⟨hne, hall, hval⟩ := repr_digits n
  have hrest : List.takeWhile Char.isDigit rest = [] ∧ List.dropWhile Char.isDigit rest = rest := by
    cases rest with
    | nil => simp
    | cons c t =>
      have := hr c t rfl
      simp [List.takeWhile, List.dropWhile, this]
  have hspan : ((Nat.repr n).data ++ rest).span Char.isDigit = ((Nat.repr n).data, rest) := by
    rw [List.span_eq_take_drop, List.takeWhile_append_of_pos hall,
      List.dropWhile_append_of_pos hall, hrest.1, hrest.2, List.append_nil]
  unfold parseNat
  rw [hspan]
  cases hd : (Nat.repr n).data with
  | nil => exact absurd hd hne
  | cons c t =>
    rw [hd] at hval
    simp only [hval]

theorem isDigit_ne (c d : Char) (hc : c.isDigit = true) (hd : d.isDigit = false) : c ≠ d := by
  rintro rfl
  rw [hc] at hd
  cases hd

theorem parseInt_toString (i : Int) (rest : List Char) (hr : NoDigit rest) :
    parseInt ((toString i).data ++ rest) = some (i, rest) := by
  cases i with
  | ofNat n =>
    obtain ⟨hne, hall, _⟩ := repr_digits n
    show parseInt ((Nat.repr n).data ++ rest) = some (Int.ofNat n, rest)
    have hp := parseNat_repr n rest hr
    cases hd : (Nat.repr n).data with
    | nil => exact absurd hd hne
    | cons c t =>
      have hc : c ≠ '-' := isDigit_ne c '-' (hall c (by rw [hd]; simp)) (by decide)
      rw [hd] at hp
      simp only [List.cons_append, parseInt, if_neg hc]
      rw [List.cons_append] at hp
      rw [hp]
      rfl
  | negSucc m =>
    show parseInt (("-" ++ Nat.repr (Nat.succ m)).data ++ rest) = some (Int.negSucc m, rest)
    have hp := parseNat_repr (Nat.succ m) rest hr
    have : ("-" ++ Nat.repr (Nat.succ m)).data ++ rest
        = '-' :: ((Nat.repr (Nat.succ m)).data ++ rest) := by
      simp
    rw [this]
    simp only [parseInt, if_true, hp, Option.map_some']
    rfl

/-- The first character of the text of a document. -/
theorem render_head (j : Json) :
    ∃ c t, j.render = c :: t ∧ c ≠ ']' ∧ c ≠ '}' ∧
      (c = 'n' ∨ c = '"' ∨ c = '[' ∨ c = '{' ∨ c = '-' ∨ c.isDigit = true) := by
  cases j with
  | null => exact ⟨'n', _, rfl, by decide, by decide, Or.inl rfl⟩
  | str s => exact ⟨'"', _, rfl, by decide, by decide, Or.inr (Or.inl rfl)⟩
  | num i =>
    cases i with
    | ofNat n =>
      obtain ⟨hne, hall, _⟩ := repr_digits n
      cases hd : (Nat.repr n).data with
      | nil => exact absurd hd hne
      | cons c t =>
        have hc : c.isDigit = true := hall c (by rw [hd]; simp)
        refine ⟨c, t, ?_, isDigit_ne c _ hc (by decide), isDigit_ne c _ hc (by decide),
          Or.inr (Or.inr (Or.inr (Or.inr (Or.inr hc))))⟩
        show (Nat.repr n).data = c :: t
        exact hd
    | negSucc m =>
      exact ⟨'-', (Nat.repr (Nat.succ m)).data, rfl, by decide, by decide,
        Or.inr (Or.inr (Or.inr (Or.inr (Or.inl rfl))))⟩
  | arr xs =>
    cases xs with
    | nil => exact ⟨'[', _, rfl, by decide, by decide, Or.inr (Or.inr (Or.inl rfl))⟩
    | cons x xs => exact ⟨'[', _, rfl, by decide, by decide, Or.inr (Or.inr (Or.inl rfl))⟩
  | obj kvs =>
    cases kvs with
    | nil =>
      exact ⟨'{', _, rfl, by decide, by decide, Or.inr (Or.inr (Or.inr (Or.inl rfl)))⟩
    | cons k v kvs =>
      exact ⟨'{', _, rfl, by decide, by decide, Or.inr (Or.inr (Or.inr (Or.inl rfl)))⟩

theorem toString_head (i : Int) :
    ∃ c t, (toString i).data = c :: t ∧ (c = '-' ∨ c.isDigit = true) := by
  cases i with
  | ofNat n =>
    obtain ⟨hne, hall, _⟩ := repr_digits n
    cases hd : (Nat.repr n).data with
    | nil => exact absurd hd hne
    | cons c t => exact ⟨c, t, rfl, Or.inr (hall c (by rw [hd]; simp))⟩
  | negSucc m => exact ⟨'-', (Nat.repr (Nat.succ m)).data, rfl, Or.inl rfl⟩

theorem noDigit_cons (c : Char) (t : List Char) (hc : c.isDigit = false) : NoDigit (c :: t) := by
  intro c2 t2 h
  cases h
  exact hc

theorem noDigit_nil : NoDigit [] := by
  intro c t h
  cases h

theorem noDigit_elems (xs : JsonList) (rest : List Char) : NoDigit (xs.renderTail ++ rest) := by
  cases xs with
  | nil => exact noDigit_cons _ _ (by decide)
  | cons x xs => exact noDigit_cons _ _ (by decide)

theorem noDigit_members (kvs : JsonMembers) (rest : List Char) :
    NoDigit (kvs.renderTail ++ rest) := by
  cases kvs with
  | nil => exact noDigit_cons _ _ (by decide)
  | cons k v kvs => exact noDigit_cons _ _ (by decide)

theorem renderString_append (k : String) (rest : List Char) :
    renderString k ++ rest = '"' :: (encodeString k.data ++ '"' :: rest) := by
  simp [renderString]

mutual
/-- Reading back the text of a document gives the document and the text that follows. -/
theorem parseValue_render : ∀ (j : Json) (f : Nat) (rest : List Char), j.size ≤ f →
    NoDigit rest → parseValue f (j.render ++ rest) = some (j.sanitize, rest)
  | .null, f, rest, hf, _ => by
    obtain ⟨g, rfl⟩ : ∃ g, f = g + 1 := ⟨f - 1, by simp only [Json.size] at hf; omega⟩
    simp [Json.render, parseValue, Json.sanitize, JsonList.sanitize, JsonMembers.sanitize]
  | .str s, f, rest, hf, _ => by
    obtain ⟨g, rfl⟩ : ∃ g, f = g + 1 := ⟨f - 1, by simp only [Json.size] at hf; omega⟩
    have htext : (Json.str s).render ++ rest
        = '"' :: (encodeString s.data ++ '"' :: rest) := by
      simp [Json.render, renderString]
    rw [htext]
    simp only [parseValue]
    rw [parseStr_render]
    simp [Json.sanitize, JsonList.sanitize, JsonMembers.sanitize]
  | .num i, f, rest, hf, hr => by
    obtain ⟨g, rfl⟩ : ∃ g, f = g + 1 := ⟨f - 1, by simp only [Json.size] at hf; omega⟩
    obtain ⟨c, t, hct, hc⟩ := toString_head i
    have hp := parseInt_toString i rest hr
    have hne : c ≠ 'n' ∧ c ≠ '"' ∧ c ≠ '[' ∧ c ≠ '{' := by
      rcases hc with rfl | hc
      · decide
      · exact ⟨isDigit_ne c _ hc (by decide), isDigit_ne c _ hc (by decide),
          isDigit_ne c _ hc (by decide), isDigit_ne c _ hc (by decide)⟩
    simp only [Json.render]
    rw [hct] at hp ⊢
    simp only [List.cons_append] at hp ⊢
    simp only [parseValue, if_neg hne.1, if_neg hne.2.1, if_neg hne.2.2.1, if_neg hne.2.2.2, hp,
      Json.sanitize]
  | .arr .nil, f, rest, hf, _ => by
    obtain ⟨g, rfl⟩ : ∃ g, f = g + 1 :=
      ⟨f - 1, by simp only [Json.size, JsonList.size] at hf; omega⟩
    simp [Json.render, parseValue, Json.sanitize, JsonList.sanitize, JsonMembers.sanitize]
  | .arr (.cons x xs), f, rest, hf, hr => by
    simp only [Json.size, JsonList.size] at hf
    obtain ⟨g, rfl⟩ : ∃ g, f = g + 1 := ⟨f - 1, by omega⟩
    have hx := parseValue_render x g (xs.renderTail ++ rest) (by omega) (noDigit_elems xs rest)
    have hxs := parseElems_render xs g rest (by omega) hr
    obtain ⟨c2, t2, hc2, hne, _, _⟩ := render_head x
    have htext : (Json.arr (.cons x xs)).render ++ rest
        = '[' :: (x.render ++ (xs.renderTail ++ rest)) := by
      simp [Json.render]
    rw [htext]
    rw [hc2] at hx ⊢
    simp only [List.cons_append] at hx ⊢
    simp only [parseValue, hx, hxs, if_neg hne]
    simp [Json.sanitize, JsonList.sanitize, JsonMembers.sanitize]
  | .obj .nil, f, rest, hf, _ => by
    obtain ⟨g, rfl⟩ : ∃ g, f = g + 1 :=
      ⟨f - 1, by simp only [Json.size, JsonMembers.size] at hf; omega⟩
    simp [Json.render, parseValue, Json.sanitize, JsonList.sanitize, JsonMembers.sanitize]
  | .obj (.cons k v kvs), f, rest, hf, hr => by
    simp only [Json.size, JsonMembers.size] at hf
    obtain ⟨g, rfl⟩ : ∃ g, f = g + 1 := ⟨f - 1, by omega⟩
    have hv := parseValue_render v g (kvs.renderTail ++ rest) (by omega)
      (noDigit_members kvs rest)
    have hkvs := parseMembers_render kvs g rest (by omega) hr
    have htext : (Json.obj (.cons k v kvs)).render ++ rest
        = '{' :: '"' :: (encodeString k.data
            ++ '"' :: ':' :: (v.render ++ (kvs.renderTail ++ rest))) := by
      simp [Json.render, renderString]
    rw [htext]
    simp only [parseValue]
    rw [parseStr_render]
    simp only [hv, hkvs]
    simp [Json.sanitize, JsonList.sanitize, JsonMembers.sanitize]
/-- Reading back the rest of an array gives its elements. -/
theorem parseElems_render : ∀ (xs : JsonList) (f : Nat) (rest : List Char), xs.size ≤ f →
    NoDigit rest → parseElems f (xs.renderTail ++ rest) = some (xs.sanitize, rest)
  | .nil, f, rest, hf, _ => by
    obtain ⟨g, rfl⟩ : ∃ g, f = g + 1 := ⟨f - 1, by simp only [JsonList.size] at hf; omega⟩
    simp [JsonList.renderTail, parseElems, Json.sanitize, JsonList.sanitize, JsonMembers.sanitize]
  | .cons x xs, f, rest, hf, hr => by
    simp only [JsonList.size] at hf
    obtain ⟨g, rfl⟩ : ∃ g, f = g + 1 := ⟨f - 1, by omega⟩
    have hx := parseValue_render x g (xs.renderTail ++ rest) (by omega) (noDigit_elems xs rest)
    have hxs := parseElems_render xs g rest (by omega) hr
    have htext : (JsonList.cons x xs).renderTail ++ rest
        = ',' :: (x.render ++ (xs.renderTail ++ rest)) := by
      simp [JsonList.renderTail]
    rw [htext]
    simp only [parseElems, hx, hxs]
    simp [Json.sanitize, JsonList.sanitize, JsonMembers.sanitize]
/-- Reading back the rest of an object gives its members. -/
theorem parseMembers_render : ∀ (kvs : JsonMembers) (f : Nat) (rest : List Char),
    kvs.size ≤ f → NoDigit rest → parseMembers f (kvs.renderTail ++ rest) = some (kvs.sanitize, rest)
  | .nil, f, rest, hf, _ => by
    obtain ⟨g, rfl⟩ : ∃ g, f = g + 1 := ⟨f - 1, by simp only [JsonMembers.size] at hf; omega⟩
    simp [JsonMembers.renderTail, parseMembers, Json.sanitize, JsonList.sanitize, JsonMembers.sanitize]
  | .cons k v kvs, f, rest, hf, hr => by
    simp only [JsonMembers.size] at hf
    obtain ⟨g, rfl⟩ : ∃ g, f = g + 1 := ⟨f - 1, by omega⟩
    have hv := parseValue_render v g (kvs.renderTail ++ rest) (by omega)
      (noDigit_members kvs rest)
    have hkvs := parseMembers_render kvs g rest (by omega) hr
    have htext : (JsonMembers.cons k v kvs).renderTail ++ rest
        = ',' :: '"' :: (encodeString k.data
            ++ '"' :: ':' :: (v.render ++ (kvs.renderTail ++ rest))) := by
      simp [JsonMembers.renderTail, renderString]
    rw [htext]
    simp only [parseMembers]
    rw [parseStr_render]
    simp only [hv, hkvs]
    simp [Json.sanitize, JsonList.sanitize, JsonMembers.sanitize]
end

theorem toString_int_ne_nil (i : Int) : (toString i).data ≠ [] := by
  obtain ⟨c, t, h, _⟩ := toString_head i
  rw [h]
  simp

mutual
/-- The text of a document is long enough to bound the nested calls of reading it. -/
theorem json_size_le : ∀ j : Json, j.size ≤ j.render.length
  | .null => by simp [Json.size, Json.render]
  | .str s => by simp [Json.size, Json.render, renderString]
  | .num i => by
    have := toString_int_ne_nil i
    simp only [Json.size, Json.render]
    cases h : (toString i).data with
    | nil => exact absurd h this
    | cons c t => simp
  | .arr .nil => by simp [Json.size, JsonList.size, Json.render]
  | .arr (.cons x xs) => by
    have hx := json_size_le x
    have hxs := jsonList_size_le xs
    simp only [Json.size, JsonList.size, Json.render, List.length_cons, List.length_append]
    omega
  | .obj .nil => by simp [Json.size, JsonMembers.size, Json.render]
  | .obj (.cons k v kvs) => by
    have hv := json_size_le v
    have hkvs := jsonMembers_size_le kvs
    simp only [Json.size, JsonMembers.size, Json.render, List.length_cons, List.length_append]
    omega
/-- The bound for the elements of an array. -/
theorem jsonList_size_le : ∀ xs : JsonList, xs.size ≤ xs.renderTail.length
  | .nil => by simp [JsonList.size, JsonList.renderTail]
  | .cons x xs => by
    have hx := json_size_le x
    have hxs := jsonList_size_le xs
    simp only [JsonList.size, JsonList.renderTail, List.length_cons, List.length_append]
    omega
/-- The bound for the members of an object. -/
theorem jsonMembers_size_le : ∀ kvs : JsonMembers, kvs.size ≤ kvs.renderTail.length
  | .nil => by simp [JsonMembers.size, JsonMembers.renderTail]
  | .cons k v kvs => by
    have hv := json_size_le v
    have hkvs := jsonMembers_size_le kvs
    simp only [JsonMembers.size, JsonMembers.renderTail, List.length_cons,
      List.length_append]
    omega
end

/-- Parsing the text written for a document gives the document back, with each byte that
is not part of a well-formed UTF-8 sequence replaced. -/
theorem parseJson_render (j : Json) : parseJson (String.mk j.render) = some j.sanitize := by
  have h := parseValue_render j (j.render.length + 1) [] (by have := json_size_le j; omega)
    noDigit_nil
  rw [List.append_nil] at h
  simp only [parseJson, String.length, h]

/-! ## The document `EmitJSON` writes -/

theorem reflectMap_marshal (h : List MapObj) (m : MapRef) (o : MapObj)
    (ho : readMap h m = some o) :
    ∃ dv data, reflectMap h m = some dv ∧ dv.marshal = .ok data ∧ IsDataDoc h m data := by
  cases m with
  | none => exact ⟨.nilMap, .null, rfl, rfl, rfl⟩
  | some a =>
    have ha : h[a]? = some o := ho
    refine ⟨.strMap o.pairs, .obj (membersOfPairs o.sortedPairs), ?_, rfl,
      o, _, ha, sortedPairs_perm o, sortedPairs_sorted o, rfl⟩
    simp [reflectMap, ha]

theorem StackEntry.reflect_marshal (h : List MapObj) (entry : StackEntry) (o : MapObj)
    (ho : readMap h entry.Data = some o) :
    ∃ v data, StackEntry.reflect h entry = some v ∧ v.marshal = .ok (entryDoc entry data) ∧
      IsDataDoc h entry.Data data := by
  obtain ⟨dv, data, hdv, hm, hdoc⟩ := reflectMap_marshal h entry.Data o ho
  refine ⟨.struct (.cons "Host" none (.string entry.Host)
    (.cons "File" none (.string entry.File)
      (.cons "Line" none (.int entry.Line)
        (.cons "Data" none dv .nil)))), data, ?_, ?_, hdoc⟩
  · simp only [StackEntry.reflect, hdv, Option.map_some']
  · simp [GoValue.marshal, GoFields.marshal, hm, entryDoc]

/-- The array written for a stack: one object per entry, in stack order. -/
theorem reflectStack_marshal (h : List MapObj) (stack : List StackEntry)
    (hdata : ∀ entry ∈ stack, ∃ o, readMap h entry.Data = some o) :
    ∃ vs items, reflectStack h stack = some vs ∧ vs.marshal = .ok items ∧
      items.toList.length = stack.length ∧
      ∀ (i : Nat) (entry : StackEntry), stack[i]? = some entry →
        ∃ data, items.toList[i]? = some (entryDoc entry data) ∧
          IsDataDoc h entry.Data data := by
  induction stack with
  | nil => exact ⟨.nil, .nil, rfl, rfl, rfl, by simp⟩
  | cons entry rest ih =>
    obtain ⟨o, ho⟩ := hdata entry (List.mem_cons_self _ _)
    obtain ⟨v, data, hv, hvm, hdoc⟩ := StackEntry.reflect_marshal h entry o ho
    obtain ⟨vs, items, hvs, hvsm, hlen, hidx⟩ :=
      ih (fun x hx => hdata x (List.mem_cons_of_mem _ hx))
    refine ⟨.cons v vs, .cons (entryDoc entry data) items, ?_, ?_, ?_, ?_⟩
    · simp only [reflectStack, hv, hvs]
    · simp only [GoValues.marshal, hvm, hvsm]
    · simp [JsonList.toList, hlen]
    · intro i en hi
      cases i with
      | zero =>
        simp only [List.getElem?_cons_zero, Option.some.injEq] at hi
        subst hi
        exact ⟨data, by simp [JsonList.toList], hdoc⟩
      | succ i =>
        simp only [List.getElem?_cons_succ] at hi
        obtain ⟨d2, hd2, hdoc2⟩ := hidx i en hi
        exact ⟨d2, by simpa [JsonList.toList] using hd2, hdoc2⟩

/-- What `EmitJSON` returns when every `Data` is nil or a map of the heap: the text of an
object with the members `ErrorMessage` and `Stack`, whatever the embedded error is. -/
theorem EmitJSON_some (dyn : GoError → GoValue) (s : State) (err : Error)
    (hdata : ∀ entry ∈ err.Stack, ∃ o, readMap s.maps entry.Data = some o) :
    ∃ items : JsonList,
      Error.EmitJSON dyn s err = some (.ok (String.mk (errorDoc err.ErrorMessage
        (if err.Stack.isEmpty then .null else .arr items)).render)) ∧
      items.toList.length = err.Stack.length ∧
      ∀ (i : Nat) (entry : StackEntry), err.Stack[i]? = some entry →
        ∃ data, items.toList[i]? = some (entryDoc entry data) ∧
          IsDataDoc s.maps entry.Data data := by
  obtain ⟨vs, items, hvs, hvsm, hlen, hidx⟩ := reflectStack_marshal s.maps err.Stack hdata
  refine ⟨items, ?_, hlen, hidx⟩
  simp only [Error.EmitJSON, Error.reflect, hvs, Option.map_some']
  cases hst : err.Stack.isEmpty <;>
    simp [GoValue.marshal, GoFields.marshal, hvsm, errorDoc]

theorem mem_capturedFrom (cs : List CallEnv) :
    ∀ (a : Nat) (entry : StackEntry), entry ∈ capturedFrom a cs →
      ∃ i, i < cs.length ∧ entry.Data = some (a + i) := by
  induction cs with
  | nil => intro a entry h; simp [capturedFrom] at h
  | cons c t ih =>
    intro a entry h
    simp only [capturedFrom, List.mem_cons] at h
    rcases h with rfl | h
    · exact ⟨0, by simp, rfl⟩
    · obtain ⟨i, hi, hd⟩ := ih (a + 1) entry h
      refine ⟨i + 1, by simp only [List.length_cons]; omega, ?_⟩
      rw [hd]
      congr 1
      omega

/-- The `Error` that `New` followed by a run of `Annotate` calls leaves: its stack is the
list of the captured entries, each referring to a map object of the heap. -/
theorem New_annotateAll_some (s : State) (c0 : CallEnv) (e : GoError) (data : MapRef)
    (g d0 : MapObj) (calls : List (CallEnv × MapRef))
    (hg : s.maps[s.globalState]? = some g) (hd0 : readMap s.maps data = some d0)
    (hcalls : ∀ call ∈ calls, MapRef.ok s.maps call.2) :
    ∃ s1 s2, New s c0 (some e) data = some (s1, some s.errors.length) ∧
      annotateAll s1 (some s.errors.length) calls = some (s2, some s.errors.length) ∧
      deref s2 (some s.errors.length) = some ⟨some e, e.Error,
        capturedFrom s.maps.length (c0 :: calls.map Prod.fst)⟩ ∧
      s2.maps.length = s.maps.length + (c0 :: calls.map Prod.fst).length := by
  obtain ⟨s1, h1, _, hg1, hlen1, herr1, _, hkeep1⟩ := New_facts s c0 e data g d0 hg hd0
  have hobj1 : s1.errors[s.errors.length]?
      = some ⟨some e, e.Error, [capturedEntry c0 s.maps.length]⟩ := by
    rw [herr1]
    simp
  have hok1 : ∀ call ∈ calls, MapRef.ok s1.maps call.2 := by
    intro call hc
    have h0 := hcalls call hc
    cases hinfo : call.2 with
    | none => trivial
    | some a =>
      rw [hinfo] at h0
      show a < s1.maps.length
      have : a < s.maps.length := h0
      omega
  obtain ⟨s2, hrun, _, _, hlen2, _, herr2⟩ :=
    annotateAll_some s.errors.length g calls s1 _ hg1 hobj1 hok1
  refine ⟨s1, s2, h1, hrun, ?_, ?_⟩
  · simp only [deref, Option.some_bind, herr2]
    rw [hlen1]
    exact getElem?_set_self_some _ _ _ _ hobj1
  · rw [hlen2, hlen1]
    simp only [List.length_cons, List.length_map]
    omega

theorem sanitize_toList : ∀ xs : JsonList, xs.sanitize.toList = xs.toList.map Json.sanitize
  | .nil => rfl
  | .cons x xs => by simp [JsonList.sanitize, JsonList.toList, sanitize_toList xs]

theorem membersOfPairs_sanitize (kvs : List (String × String)) :
    (membersOfPairs kvs).sanitize = membersOfPairs (kvs.map sanitizePair) := by
  induction kvs with
  | nil => rfl
  | cons kv rest ih =>
    simp [membersOfPairs, JsonMembers.sanitize, Json.sanitize, sanitizePair, ih]

theorem entryDoc_sanitize (entry : StackEntry) (data : Json) :
    (entryDoc entry data).sanitize = entryDoc entry.sanitize data.sanitize := by
  have h1 : sanitizeString "Host" = "Host" := by decide
  have h2 : sanitizeString "File" = "File" := by decide
  have h3 : sanitizeString "Line" = "Line" := by decide
  have h4 : sanitizeString "Data" = "Data" := by decide
  simp [entryDoc, Json.sanitize, JsonMembers.sanitize, StackEntry.sanitize, h1, h2, h3, h4]

theorem errorDoc_sanitize (msg : String) (stack : Json) :
    (errorDoc msg stack).sanitize = errorDoc (sanitizeString msg) stack.sanitize := by
  have h1 : sanitizeString "ErrorMessage" = "ErrorMessage" := by decide
  have h2 : sanitizeString "Stack" = "Stack" := by decide
  simp [errorDoc, Json.sanitize, JsonMembers.sanitize, h1, h2]

theorem map_sanitizePair_valid (kvs : List (String × String))
    (h : ∀ kv ∈ kvs, ValidUTF8 kv.1 ∧ ValidUTF8 kv.2) : kvs.map sanitizePair = kvs := by
  induction kvs with
  | nil => rfl
  | cons kv rest ih =>
    have hkv := h kv (List.mem_cons_self _ _)
    rw [List.map_cons, ih (fun x hx => h x (List.mem_cons_of_mem _ hx))]
    simp only [sanitizePair, sanitizeString_valid _ hkv.1, sanitizeString_valid _ hkv.2]

theorem sanitizeEntry_valid (entry : StackEntry) (h1 : ValidUTF8 entry.Host)
    (h2 : ValidUTF8 entry.File) : entry.sanitize = entry := by
  simp only [StackEntry.sanitize, sanitizeString_valid _ h1, sanitizeString_valid _ h2]

/-- C12, as the code has it: for every `Error` produced by `New` followed by any number of
`Annotate` calls, `EmitJSON` returns a document that parses back into an object whose
members are exactly `ErrorMessage` and `Stack`; `ErrorMessage` is the `ErrorMessage` of the
error with every byte that is not part of a well-formed UTF-8 sequence replaced by U+FFFD,
hence equal to it when it is valid UTF-8; `Stack` is an array as long as the stack whose
`i`-th element is an object with the members `Host`, `File`, `Line` and `Data` of the
`i`-th stack entry, `Line` as it is, `Host`, `File` and the keys and values of `Data` with
the same replacement, `Data` being an object with exactly the entries of the entry's map
in the order of their keys; the element equals the entry's fields when these are valid
UTF-8. -/
theorem EmitJSON_parses_back (dyn : GoError → GoValue) (s : State) (c0 : CallEnv)
    (e : GoError) (data : MapRef) (g d0 : MapObj) (calls : List (CallEnv × MapRef))
    (hg : s.maps[s.globalState]? = some g) (hd0 : readMap s.maps data = some d0)
    (hcalls : ∀ call ∈ calls, MapRef.ok s.maps call.2) :
    ∃ s1 r s2 obj2 out items, New s c0 (some e) data = some (s1, r) ∧
      annotateAll s1 r calls = some (s2, r) ∧ deref s2 r = some obj2 ∧
      Error.EmitJSON dyn s2 obj2 = some (.ok out) ∧
      parseJson out = some (errorDoc (sanitizeString obj2.ErrorMessage) (.arr items)) ∧
      (ValidUTF8 obj2.ErrorMessage →
        parseJson out = some (errorDoc obj2.ErrorMessage (.arr items))) ∧
      items.toList.length = obj2.Stack.length ∧
      ∀ (i : Nat) (entry : StackEntry), obj2.Stack[i]? = some entry →
        ∃ (a : Nat) (o : MapObj) (kvs : List (String × String)), entry.Data = some a ∧
          s2.maps[a]? = some o ∧ kvs.Perm o.pairs ∧ kvs.Sorted keyLE ∧
          items.toList[i]? = some (entryDoc entry.sanitize
            (.obj (membersOfPairs (kvs.map sanitizePair)))) ∧
          (ValidEntry entry o →
            items.toList[i]? = some (entryDoc entry (.obj (membersOfPairs kvs)))) := by
  obtain ⟨s1, s2, h1, hrun, hobj2, hlen2⟩ :=
    New_annotateAll_some s c0 e data g d0 calls hg hd0 hcalls
  have hlive : ∀ entry ∈ capturedFrom s.maps.length (c0 :: calls.map Prod.fst),
      ∃ a, entry.Data = some a ∧ a < s2.maps.length := by
    intro entry hentry
    obtain ⟨i, hi, hd⟩ := mem_capturedFrom _ _ entry hentry
    exact ⟨_, hd, by omega⟩
  have hdata : ∀ entry ∈ capturedFrom s.maps.length (c0 :: calls.map Prod.fst),
      ∃ o, readMap s2.maps entry.Data = some o := by
    intro entry hentry
    obtain ⟨a, ha, hlt⟩ := hlive entry hentry
    exact ⟨s2.maps[a], by rw [ha]; exact List.getElem?_eq_getElem hlt⟩
  obtain ⟨items, hemit, hlen, hidx⟩ :=
    EmitJSON_some dyn s2 ⟨some e, e.Error,
      capturedFrom s.maps.length (c0 :: calls.map Prod.fst)⟩ hdata
  have hne : (capturedFrom s.maps.length (c0 :: calls.map Prod.fst)).isEmpty = false := rfl
  simp only [hne, Bool.false_eq_true, if_false] at hemit
  have hparse : parseJson (String.mk (errorDoc e.Error (.arr items)).render)
      = some (errorDoc (sanitizeString e.Error) (.arr items.sanitize)) := by
    rw [parseJson_render, errorDoc_sanitize]
    rfl
  refine ⟨s1, _, s2, _, _, items.sanitize, h1, hrun, hobj2, hemit, hparse, ?_, ?_, ?_⟩
  · intro hv
    rw [hparse, sanitizeString_valid _ hv]
  · rw [sanitize_toList, List.length_map]
    exact hlen
  · intro i entry hi
    obtain ⟨doc, hdoc, hisdoc⟩ := hidx i entry hi
    obtain ⟨a, ha, _⟩ := hlive entry (List.getElem?_mem hi)
    rw [ha] at hisdoc
    obtain ⟨o, kvs, ho, hperm, hsorted, hd⟩ := hisdoc
    have hitem : items.sanitize.toList[i]? = some (entryDoc entry.sanitize
        (.obj (membersOfPairs (kvs.map sanitizePair)))) := by
      rw [sanitize_toList, List.getElem?_map, hdoc, hd, Option.map_some', entryDoc_sanitize,
        Json.sanitize, membersOfPairs_sanitize]
    refine ⟨a, o, kvs, ha, ho, hperm, hsorted, hitem, ?_⟩
    intro hv
    have hkvs : kvs.map sanitizePair = kvs :=
      map_sanitizePair_valid kvs (fun kv hkv => hv.2.2 kv (hperm.mem_iff.mp hkv))
    rw [hitem, hkvs, sanitizeEntry_valid entry hv.1 hv.2.1]

theorem EmitJSON_parses_back_witness :
    ∃ s1 r s2 obj2 out items,
      New sampleState sampleEnv (some ⟨"boom"⟩) (some 1) = some (s1, r) ∧
      annotateAll s1 r [(sampleEnv2, none)] = some (s2, r) ∧ deref s2 r = some obj2 ∧
      Error.EmitJSON (fun _ => GoValue.unsupported) s2 obj2 = some (.ok out) ∧
      parseJson out = some (errorDoc (sanitizeString obj2.ErrorMessage) (.arr items)) ∧
      (ValidUTF8 obj2.ErrorMessage →
        parseJson out = some (errorDoc obj2.ErrorMessage (.arr items))) ∧
      items.toList.length = obj2.Stack.length ∧
      ∀ (i : Nat) (entry : StackEntry), obj2.Stack[i]? = some entry →
        ∃ (a : Nat) (o : MapObj) (kvs : List (String × String)), entry.Data = some a ∧
          s2.maps[a]? = some o ∧ kvs.Perm o.pairs ∧ kvs.Sorted keyLE ∧
          items.toList[i]? = some (entryDoc entry.sanitize
            (.obj (membersOfPairs (kvs.map sanitizePair)))) ∧
          (ValidEntry entry o →
            items.toList[i]? = some (entryDoc entry (.obj (membersOfPairs kvs)))) :=
  EmitJSON_parses_back (fun _ => GoValue.unsupported) sampleState sampleEnv ⟨"boom"⟩ (some 1)
    sampleGlobal sampleData [(sampleEnv2, none)] rfl rfl (by decide)

/-- C12 as the spec has it fails for a message that is not valid UTF-8: `New` on an error
whose message is `caf` followed by the byte 0xE9 gives an `Error` with that
`ErrorMessage`, and the document `EmitJSON` returns for it parses back into an object
whose `ErrorMessage` is `caf` followed by U+FFFD, a different string. -/
theorem EmitJSON_parses_back_counterexample :
    ∃ s1 r obj out stack,
      New State.init sampleEnv (some ⟨"caf\xe9"⟩) none = some (s1, r) ∧
      deref s1 r = some obj ∧ obj.ErrorMessage = "caf\xe9" ∧
      Error.EmitJSON (fun _ => GoValue.unsupported) s1 obj = some (.ok out) ∧
      parseJson out = some (errorDoc "caf\xef\xbf\xbd" stack) ∧
      "caf\xef\xbf\xbd" ≠ obj.ErrorMessage :=
  ⟨_, _, _, _, _, rfl, rfl, rfl, rfl, rfl, by decide⟩

/-- The struct tag `json:"-"` takes the embedded error out of what `EmitJSON` computes. -/
theorem EmitJSON_embedded_irrelevant (dyn1 dyn2 : GoError → GoValue) (s : State)
    (e1 e2 : Option GoError) (msg : String) (stack : List StackEntry) :
    Error.EmitJSON dyn1 s ⟨e1, msg, stack⟩ = Error.EmitJSON dyn2 s ⟨e2, msg, stack⟩ := by
  simp only [Error.EmitJSON, Error.reflect]
  cases reflectStack s.maps stack with
  | none => rfl
  | some vs => simp [GoValue.marshal, GoFields.marshal]

/-- C13: the embedded error is excluded from the structured output: for any two `Error`s
with equal `ErrorMessage` and equal `Stack`, whatever their embedded errors are and whatever
values these hold inside, `EmitJSON` returns identical bytes. -/
theorem EmitJSON_ignores_embedded (dyn1 dyn2 : GoError → GoValue) (s : State)
    (err1 err2 : Error) (hmsg : err1.ErrorMessage = err2.ErrorMessage)
    (hstack : err1.Stack = err2.Stack)
    (hdata : ∀ entry ∈ err1.Stack, ∃ o, readMap s.maps entry.Data = some o) :
    ∃ out, Error.EmitJSON dyn1 s err1 = some (.ok out) ∧
      Error.EmitJSON dyn2 s err2 = some (.ok out) := by
  obtain ⟨items, hemit, _, _⟩ := EmitJSON_some dyn1 s err1 hdata
  refine ⟨_, hemit, ?_⟩
  rw [← hemit]
  obtain ⟨e1, m1, st1⟩ := err1
  obtain ⟨e2, m2, st2⟩ := err2
  simp only at hmsg hstack
  subst hmsg
  subst hstack
  exact EmitJSON_embedded_irrelevant dyn2 dyn1 s e2 e1 m1 st1

theorem EmitJSON_ignores_embedded_witness :
    ∃ out, Error.EmitJSON (fun _ => GoValue.unsupported) sampleState sampleError2
        = some (.ok out) ∧
      Error.EmitJSON (fun e => GoValue.string e.Error) sampleState
        ⟨none, sampleError2.ErrorMessage, sampleError2.Stack⟩ = some (.ok out) :=
  EmitJSON_ignores_embedded (fun _ => GoValue.unsupported) (fun e => GoValue.string e.Error)
    sampleState sampleError2 ⟨none, sampleError2.ErrorMessage, sampleError2.Stack⟩ rfl rfl
    (by
      intro entry hentry
      simp only [sampleError2, List.mem_cons, List.mem_singleton, List.not_mem_nil,
        or_false] at hentry
      rcases hentry with rfl | rfl
      · exact ⟨sampleData, rfl⟩
      · exact ⟨∅, rfl⟩)

/-- C17: `EmitJSON` does not fail in normal operation: for every `Error` whose stack
entries carry string-to-string `Data` (nil or a map of the heap), and whatever value its
embedded error holds, also one `encoding/json` cannot encode, `EmitJSON` returns a
document and no serialization error. -/
theorem EmitJSON_no_error (dyn : GoError → GoValue) (s : State) (err : Error)
    (hdata : ∀ entry ∈ err.Stack, ∃ o, readMap s.maps entry.Data = some o) :
    ∃ out, Error.EmitJSON dyn s err = some (.ok out) := by
  obtain ⟨items, hemit, _, _⟩ := EmitJSON_some dyn s err hdata
  exact ⟨_, hemit⟩

theorem EmitJSON_no_error_witness :
    ∃ out, Error.EmitJSON (fun _ => GoValue.unsupported) sampleState sampleError2
      = some (.ok out) :=
  EmitJSON_no_error (fun _ => GoValue.unsupported) sampleState sampleError2
    (by
      intro entry hentry
      simp only [sampleError2, List.mem_cons, List.mem_singleton, List.not_mem_nil,
        or_false] at hentry
      rcases hentry with rfl | rfl
      · exact ⟨sampleData, rfl⟩
      · exact ⟨∅, rfl⟩)

/-- C19: the human-readable header comes from the embedded error, not from the cached
`ErrorMessage`: two `Error`s with the same embedded error and stack get the same text from
`EmitHumanReadable` whatever their `ErrorMessage` fields are, whereas `EmitJSON` writes the
document whose member `ErrorMessage` is the cached `ErrorMessage`, which parses back into
that string as `encoding/json` writes strings, and into that very string when it is valid
UTF-8; and for the `Error` with embedded message `boom` and cached message `stale` the two
renderings disagree on the message. -/
theorem renderings_disagree (dyn : GoError → GoValue) (s : State) (err : Error)
    (hdata : ∀ entry ∈ err.Stack, ∃ o, readMap s.maps entry.Data = some o) :
    (∀ m1 m2 : String,
        Error.EmitHumanReadable s ⟨err.EmbeddedError, m1, err.Stack⟩
          = Error.EmitHumanReadable s ⟨err.EmbeddedError, m2, err.Stack⟩) ∧
    (∃ out stack, Error.EmitJSON dyn s err = some (.ok out) ∧
        out = String.mk (errorDoc err.ErrorMessage stack).render ∧
        parseJson out = some (errorDoc (sanitizeString err.ErrorMessage) stack.sanitize) ∧
        (ValidUTF8 err.ErrorMessage →
          parseJson out = some (errorDoc err.ErrorMessage stack.sanitize))) ∧
    (staleError.Error = some "boom" ∧ staleError.ErrorMessage = "stale" ∧
      Error.EmitHumanReadable s staleError = some "boom\n" ∧
      Error.EmitJSON dyn s staleError
        = some (.ok "\x7b\"ErrorMessage\":\"stale\",\"Stack\":null\x7d")) := by
  refine ⟨fun _ _ => rfl, ?_, rfl, rfl, rfl, rfl⟩
  obtain ⟨items, hemit, _, _⟩ := EmitJSON_some dyn s err hdata
  have hparse := parseJson_render
    (errorDoc err.ErrorMessage (if err.Stack.isEmpty then .null else .arr items))
  rw [errorDoc_sanitize] at hparse
  refine ⟨_, _, hemit, rfl, hparse, fun hv => ?_⟩
  rw [hparse, sanitizeString_valid _ hv]

theorem renderings_disagree_witness :
    (∀ m1 m2 : String,
        Error.EmitHumanReadable sampleState
            ⟨sampleError2.EmbeddedError, m1, sampleError2.Stack⟩
          = Error.EmitHumanReadable sampleState
            ⟨sampleError2.EmbeddedError, m2, sampleError2.Stack⟩) ∧
    (∃ out stack,
        Error.EmitJSON (fun _ => GoValue.unsupported) sampleState sampleError2
          = some (.ok out) ∧
        out = String.mk (errorDoc sampleError2.ErrorMessage stack).render ∧
        parseJson out
          = some (errorDoc (sanitizeString sampleError2.ErrorMessage) stack.sanitize) ∧
        (ValidUTF8 sampleError2.ErrorMessage →
          parseJson out = some (errorDoc sampleError2.ErrorMessage stack.sanitize))) ∧
    (staleError.Error = some "boom" ∧ staleError.ErrorMessage = "stale" ∧
      Error.EmitHumanReadable sampleState staleError = some "boom\n" ∧
      Error.EmitJSON (fun _ => GoValue.unsupported) sampleState staleError
        = some (.ok "\x7b\"ErrorMessage\":\"stale\",\"Stack\":null\x7d")) :=
  renderings_disagree (fun _ => GoValue.unsupported) sampleState sampleError2
    (by
      intro entry hentry
      simp only [sampleError2, List.mem_cons, List.mem_singleton, List.not_mem_nil,
        or_false] at hentry
      rcases hentry with rfl | rfl
      · exact ⟨sampleData, rfl⟩
      · exact ⟨∅, rfl⟩)

end Iodine
